import Mathlib

/-
Verification of the document parser in src/create_anki_deck.py.

The parser is embedded shallowly: Python strings become `List Char`,
Python dicts become association lists (`dictInsert` reproduces dict
assignment), Python sets become `Finset`, and the statements of
`parse_input_file` are translated line by line into total Lean
functions.  Characters are handled at ASCII level (the inputs the
program is written for), so `str.upper`, `str.strip` and the
case-insensitive regexes are modelled on ASCII case.
-/

/-- ASCII whitespace: the characters stripped by Python `str.strip()` and
matched by the regex class `\s` on ASCII text. -/
def pyIsSpace (c : Char) : Bool :=
  c == ' ' || c == '\t' || c == '\n' || c == '\r' || c == '\x0b' || c == '\x0c'

/-- Python `str.strip()`: drop leading and trailing whitespace. -/
def stripCh (l : List Char) : List Char :=
  ((l.dropWhile pyIsSpace).reverse.dropWhile pyIsSpace).reverse

/-- Python `str.upper()` on one ASCII character. -/
def pyUpper (c : Char) : Char :=
  if 97 ≤ c.toNat ∧ c.toNat ≤ 122 then Char.ofNat (c.toNat - 32) else c

/-- Python `str.lower()` on one ASCII character (used by the
case-insensitive regex matching). -/
def pyLower (c : Char) : Char :=
  if 65 ≤ c.toNat ∧ c.toNat ≤ 90 then Char.ofNat (c.toNat + 32) else c

/-- Python `str.upper()` on a whole string. -/
def upperCh (l : List Char) : List Char := l.map pyUpper

/-- Python `str.startswith(pat)`; the first argument is the pattern. -/
def startsWithCh : List Char → List Char → Bool
  | [], _ => true
  | _ :: _, [] => false
  | p :: ps, c :: cs => p == c && startsWithCh ps cs

/-- Python `a in line` for a single character `a`. -/
def hasChar (a : Char) : List Char → Bool
  | [] => false
  | c :: cs => c == a || hasChar a cs

/-- Python `s.split(':', 1)`: the text before the first colon, and the
text after it when a colon occurs at all. -/
def splitColonOnce : List Char → List Char × Option (List Char)
  | [] => ([], none)
  | ':' :: rest => ([], some rest)
  | c :: cs =>
    let r := splitColonOnce cs
    (c :: r.1, r.2)

/-- Prepend a character to the first part of a non-empty partition
(helper for the splitting functions below). -/
def consHead (c : Char) : List (List Char) → List (List Char)
  | [] => [[c]]
  | p :: ps => (c :: p) :: ps

/-- Python `str.splitlines()`: split on the line terminators
`\n`, `\r\n` and `\r`, with no trailing empty line. -/
def splitlinesCh : List Char → List (List Char)
  | [] => []
  | '\n' :: rest => [] :: splitlinesCh rest
  | '\r' :: '\n' :: rest => [] :: splitlinesCh rest
  | '\r' :: rest => [] :: splitlinesCh rest
  | c :: rest => consHead c (splitlinesCh rest)

/-- Python `content.split('---', 1)`: the text before the first
occurrence of `---`, and the text after it when `---` occurs at all. -/
def splitDashOnce : List Char → List Char × Option (List Char)
  | '-' :: '-' :: '-' :: rest => ([], some rest)
  | c :: cs =>
    let r := splitDashOnce cs
    (c :: r.1, r.2)
  | [] => ([], none)

/-- Python `content.split('---')`: split on every (leftmost,
non-overlapping) occurrence of `---`. -/
def splitDashAll : List Char → List (List Char)
  | '-' :: '-' :: '-' :: rest => [] :: splitDashAll rest
  | c :: cs => consHead c (splitDashAll cs)
  | [] => [[]]

/-- Whether `---` occurs (contiguously) somewhere in the text. -/
def hasDash3 : List Char → Bool
  | [] => false
  | c :: cs => startsWithCh ['-', '-', '-'] (c :: cs) || hasDash3 cs

/-- Join a list of parts with a separator (used to state that the body
split consumes every occurrence of the delimiter). -/
def joinWith (sep : List Char) (ps : List (List Char)) : List Char :=
  match ps with
  | [] => []
  | p :: ps => p ++ (ps.map (fun q => sep ++ q)).flatten

/-- Python dict assignment `d[k] = v` on an association list: replace the
value in place when the key is present, else append the new entry. -/
def dictInsert (k v : List Char) : List (List Char × List Char) → List (List Char × List Char)
  | [] => [(k, v)]
  | (k', v') :: t => if k' = k then (k, v) :: t else (k', v') :: dictInsert k v t

/-- Python dict lookup `d.get(k)` on an association list. -/
def dictGet (k : List Char) : List (List Char × List Char) → Option (List Char)
  | [] => none
  | (k', v) :: t => if k' = k then some v else dictGet k t

/-- The `'<img src="([^"]+)"\s*\/?>'` literal part, lowercased
(`\x22` is the double-quote character). -/
def imgPat : List Char := ['<', 'i', 'm', 'g', ' ', 's', 'r', 'c', '=', '\x22']

/-- The `'\[sound:([^\]]+)\]'` literal part, lowercased. -/
def soundPat : List Char := ['[', 's', 'o', 'u', 'n', 'd', ':']

/-- Consume a (lowercase) literal pattern case-insensitively, returning
the rest of the text on success. -/
def dropCi : List Char → List Char → Option (List Char)
  | [], cs => some cs
  | _ :: _, [] => none
  | p :: ps, c :: cs => if pyLower c == p then dropCi ps cs else none

/-- One attempted match of `<img src="([^"]+)"\s*\/?>` (IGNORECASE) at the
head of the text: on success, the capture and the text after the match. -/
def matchImg (cs : List Char) : Option (List Char × List Char) :=
  match dropCi imgPat cs with
  | none => none
  | some r1 =>
    match r1.takeWhile (fun c => c != '\x22'), r1.dropWhile (fun c => c != '\x22') with
    | [], _ => none
    | a :: cap, '\x22' :: r2 =>
      match r2.dropWhile pyIsSpace with
      | '>' :: r3 => some (a :: cap, r3)
      | '/' :: '>' :: r3 => some (a :: cap, r3)
      | _ => none
    | _, _ => none

/-- One attempted match of `\[sound:([^\]]+)\]` (IGNORECASE) at the head
of the text: on success, the capture and the text after the match. -/
def matchSound (cs : List Char) : Option (List Char × List Char) :=
  match dropCi soundPat cs with
  | none => none
  | some r1 =>
    match r1.takeWhile (fun c => c != ']'), r1.dropWhile (fun c => c != ']') with
    | [], _ => none
    | a :: cap, ']' :: r2 => some (a :: cap, r2)
    | _, _ => none

/-- `re.findall` driver: scan left to right, recording each
non-overlapping match's capture.  The fuel argument bounds the recursion
and is instantiated with the text length, which always suffices since
every match consumes at least one character. -/
def scanAll (m : List Char → Option (List Char × List Char)) : Nat → List Char → List (List Char)
  | 0, _ => []
  | _ + 1, [] => []
  | n + 1, c :: cs =>
    match m (c :: cs) with
    | some (cap, rest) => cap :: scanAll m n rest
    | none => scanAll m n cs

/-- `find_media_files` from the source: the set of captures of the image
pattern together with the set of captures of the sound pattern. -/
def find_media_files (text : List Char) : Finset (List Char) :=
  (scanAll matchImg text.length text).toFinset ∪
    (scanAll matchSound text.length text).toFinset

/-- One parsed card, as built by `parse_input_file`. -/
structure Card where
  front : List Char
  back : List Char
  subdeck : List Char
  media_files : Finset (List Char)
deriving DecidableEq

/-- The active-field cursor inside a card block (`current_field`). -/
inductive FieldTag where
  | front
  | back
deriving DecidableEq, Repr

/-- Python `'<br>'.join(fragments)`. -/
def joinBr (l : List (List Char)) : List Char :=
  (List.intercalate ['<', 'b', 'r', '>'] l)

/-- One step of the header-parsing loop: process one header line
(lines 60-63 of the source). -/
def headerLineStep (d : List (List Char × List Char)) (line : List Char) :
    List (List Char × List Char) :=
  if hasChar ':' line && !(startsWithCh ['#'] (stripCh line)) then
    dictInsert (upperCh (stripCh (splitColonOnce line).1))
      (stripCh ((splitColonOnce line).2.getD [])) d
  else d

/-- The header-parsing loop over the lines of the header region. -/
def parseHeaderCh (headerContent : List Char) : List (List Char × List Char) :=
  (splitlinesCh headerContent).foldl headerLineStep []

/-- One step of the per-block field loop (lines 82-93 of the source);
state is `(current_field, card_data FRONT, card_data BACK)`. -/
def cardLineStep (st : Option FieldTag × List (List Char) × List (List Char))
    (line : List Char) : Option FieldTag × List (List Char) × List (List Char) :=
  let l := stripCh line
  if l = [] || startsWithCh ['#'] l then st
  else if startsWithCh ['F', 'R', 'O', 'N', 'T', ':'] (upperCh l) then
    (some FieldTag.front, st.2.1 ++ [stripCh (l.drop 6)], st.2.2)
  else if startsWithCh ['B', 'A', 'C', 'K', ':'] (upperCh l) then
    (some FieldTag.back, st.2.1, st.2.2 ++ [stripCh (l.drop 5)])
  else
    match st.1 with
    | some FieldTag.front => (st.1, st.2.1 ++ [stripCh l], st.2.2)
    | some FieldTag.back => (st.1, st.2.1, st.2.2 ++ [stripCh l])
    | none => st

/-- The field-accumulation loop over the lines of a block. -/
def parseCardFields (lines : List (List Char)) :
    Option FieldTag × List (List Char) × List (List Char) :=
  lines.foldl cardLineStep (none, [], [])

/-- Lines 80-103 of the source, for a block already known not to be a
subdeck directive: parse the fields and emit a card exactly when both
fragment lists are non-empty. -/
def cardOfBlock (sub : List Char) (block : List Char) : Option Card :=
  let r := parseCardFields (splitlinesCh block)
  if r.2.1 ≠ [] ∧ r.2.2 ≠ [] then
    some { front := joinBr r.2.1
           back := joinBr r.2.2
           subdeck := sub
           media_files := find_media_files (joinBr r.2.1) ∪ find_media_files (joinBr r.2.2) }
  else none

/-- `first_line.upper().startswith('SUBDECK:')`. -/
def isSubdeckLine (firstLine : List Char) : Bool :=
  startsWithCh ['S', 'U', 'B', 'D', 'E', 'C', 'K', ':'] (upperCh firstLine)

/-- `first_line.split(':', 1)[1].strip()`, the new current subdeck. -/
def subdeckValue (firstLine : List Char) : List Char :=
  stripCh ((splitColonOnce firstLine).2.getD [])

/-- The main block loop (lines 66-103 of the source), threading the
`current_subdeck` state through the blocks. -/
def processBlocks (sub : List Char) : List (List Char) → List Card
  | [] => []
  | b :: bs =>
    let b' := stripCh b
    if b' = [] then processBlocks sub bs
    else
      let fl := stripCh ((splitlinesCh b').headD [])
      if isSubdeckLine fl then processBlocks (subdeckValue fl) bs
      else
        match cardOfBlock sub b' with
        | some c => c :: processBlocks sub bs
        | none => processBlocks sub bs

/-- The parser proper, applied to the in-memory file content
(lines 53-105 of the source). -/
def parseCh (content : List Char) : List (List Char × List Char) × List Card :=
  let parts := splitDashOnce content
  (parseHeaderCh parts.1, processBlocks [] (splitDashAll (parts.2.getD [])))

/-- `parse_input_file`: the file content when the file is readable
(`none` models `FileNotFoundError`, which yields `({}, [])`). -/
def parse_input_file : Option String → List (List Char × List Char) × List Card
  | none => ([], [])
  | some content => parseCh content.data

/-- Specification-side reading of one header line (from the spec's
"split on the first `:`, uppercase-and-trim the key, trim the value",
with comment and colon-free lines ignored). -/
def headerEntry (line : List Char) : Option (List Char × List Char) :=
  if hasChar ':' line && !(startsWithCh ['#'] (stripCh line)) then
    some (upperCh (stripCh (splitColonOnce line).1), stripCh ((splitColonOnce line).2.getD []))
  else none

/-- Specification-side header lookup: the value of the LAST line that
parses to an entry with the given key ("last occurrence of a duplicate
key wins"). -/
def lastWinsLookup (k : List Char) : List (List Char) → Option (List Char)
  | [] => none
  | l :: ls =>
    match lastWinsLookup k ls with
    | some v => some v
    | none =>
      match headerEntry l with
      | some e => if e.1 = k then some e.2 else none
      | none => none

/-- Specification-side classification of one line of a card block:
skipped, a field marker carrying its seed fragment, or plain content. -/
inductive LineClass where
  | skip
  | marker (f : FieldTag) (frag : List Char)
  | content (frag : List Char)
deriving DecidableEq

/-- Classify a card-block line the way the spec describes step 5:
blank/comment lines are skipped, `FRONT:`/`BACK:` prefixes (after
trimming, case-insensitively) are markers seeded with the trimmed
remainder, and everything else is content. -/
def lineClass (line : List Char) : LineClass :=
  let l := stripCh line
  if l = [] || startsWithCh ['#'] l then LineClass.skip
  else if startsWithCh ['F', 'R', 'O', 'N', 'T', ':'] (upperCh l) then
    LineClass.marker FieldTag.front (stripCh (l.drop 6))
  else if startsWithCh ['B', 'A', 'C', 'K', ':'] (upperCh l) then
    LineClass.marker FieldTag.back (stripCh (l.drop 5))
  else LineClass.content (stripCh l)

/-- The active field after one more line: a marker switches it, every
other line leaves it alone. -/
def cursorStep (cf : Option FieldTag) (line : List Char) : Option FieldTag :=
  match lineClass line with
  | LineClass.marker f _ => some f
  | _ => cf

/-- Specification-side fragment list of one field: a marker for the field
contributes its seed, a content line contributes its text exactly when
the most recent preceding marker (starting from `cf`) selected this
field, and lines before any marker are discarded (`cf = none`). -/
def specFrags (f : FieldTag) : Option FieldTag → List (List Char) → List (List Char)
  | _, [] => []
  | cf, l :: ls =>
    match lineClass l with
    | LineClass.skip => specFrags f cf ls
    | LineClass.marker g frag => (if g = f then [frag] else []) ++ specFrags f (some g) ls
    | LineClass.content frag => (if cf = some f then [frag] else []) ++ specFrags f cf ls

/-- Specification-side card of one body block, given the subdeck in
force at that block: empty blocks and subdeck directives produce no
card, anything else is parsed by the card parser. -/
def blockCard (sub : List Char) (b : List Char) : Option Card :=
  let b' := stripCh b
  if b' = [] then none
  else if isSubdeckLine (stripCh ((splitlinesCh b').headD [])) then none
  else cardOfBlock sub b'

/-- How one block transforms the subdeck in force: only a subdeck
directive block changes it, to the trimmed text after its colon. -/
def subStep (sub : List Char) (b : List Char) : List Char :=
  let b' := stripCh b
  if b' = [] then sub
  else
    let fl := stripCh ((splitlinesCh b').headD [])
    if isSubdeckLine fl then subdeckValue fl else sub

/-- The subdeck in force after a list of blocks: the value of the most
recent directive, starting from `sub0`. -/
def subdeckAt (sub0 : List Char) (bs : List (List Char)) : List Char :=
  bs.foldl subStep sub0

/-- Specification-side card list: the block at position `i` is parsed
under the subdeck determined by the directives among blocks `0..i-1`. -/
def specCardsPos (sub0 : List Char) (bs : List (List Char)) : List Card :=
  (List.range bs.length).filterMap fun i => blockCard (subdeckAt sub0 (bs.take i)) (bs.getD i [])

/-- Header-line step with the partial operations made explicit: Python's
`line.split(':', 1)` destructuring into exactly two names fails unless a
colon is present. -/
def headerLineStepChecked (d : List (List Char × List Char)) (line : List Char) :
    Option (List (List Char × List Char)) :=
  if hasChar ':' line && !(startsWithCh ['#'] (stripCh line)) then
    match splitColonOnce line with
    | (k, some v) => some (dictInsert (upperCh (stripCh k)) (stripCh v) d)
    | (_, none) => none
  else some d

/-- Header parsing with explicit partiality. -/
def parseHeaderChChecked (headerContent : List Char) :
    Option (List (List Char × List Char)) :=
  (splitlinesCh headerContent).foldlM headerLineStepChecked []

/-- The block loop with the partial operations made explicit:
`block.splitlines()[0]` fails on an empty line list, and
`first_line.split(':', 1)[1]` fails when no colon is present. -/
def processBlocksChecked (sub : List Char) : List (List Char) → Option (List Card)
  | [] => some []
  | b :: bs =>
    let b' := stripCh b
    if b' = [] then processBlocksChecked sub bs
    else
      match (splitlinesCh b').head? with
      | none => none
      | some fl0 =>
        let fl := stripCh fl0
        if isSubdeckLine fl then
          match (splitColonOnce fl).2 with
          | none => none
          | some after => processBlocksChecked (stripCh after) bs
        else
          match cardOfBlock sub b' with
          | some c => (processBlocksChecked sub bs).map (fun l => c :: l)
          | none => processBlocksChecked sub bs

/-- The whole parse with every partial indexing operation explicit. -/
def parseChChecked (content : List Char) :
    Option (List (List Char × List Char) × List Card) := do
  let parts := splitDashOnce content
  let h ← parseHeaderChChecked parts.1
  let cs ← processBlocksChecked [] (splitDashAll (parts.2.getD []))
  some (h, cs)

/-- Characters free of line terminators (helper predicate for the
round-trip development). -/
def nlFreeB (l : List Char) : Bool :=
  l.all (fun c => c != '\n' && c != '\r')

/-- One serialized header line, `KEY:value` plus a line feed. -/
def headerLineS (kv : List Char × List Char) : List Char :=
  kv.1 ++ ':' :: kv.2 ++ ['\n']

/-- The body text of a serialized subdeck-directive block. -/
def subPartS (c : Card) : List Char :=
  '\n' :: 'S' :: 'U' :: 'B' :: 'D' :: 'E' :: 'C' :: 'K' :: ':' :: c.subdeck ++ ['\n']

/-- The body text of a serialized card block: a `FRONT:` line and a
`BACK:` line. -/
def cardPartS (c : Card) : List Char :=
  '\n' :: 'F' :: 'R' :: 'O' :: 'N' :: 'T' :: ':' :: c.front ++
    '\n' :: 'B' :: 'A' :: 'C' :: 'K' :: ':' :: c.back ++ ['\n']

/-- One card's serialization: a delimiter, its subdeck directive block,
another delimiter, and its card block. -/
def cardSerS (c : Card) : List Char :=
  '-' :: '-' :: '-' :: subPartS c ++ '-' :: '-' :: '-' :: cardPartS c

/-- Modelled from the spec: the serialized reconstruction of a
`(Header, Cards)` result is not part of the source (only the parser is);
following the spec's round-trip property it rebuilds the text "using the
same field markers and delimiter": one `KEY: value` line per header
entry, and for each card a `SUBDECK:` directive block carrying the
card's subdeck followed by a `FRONT:`/`BACK:` card block. -/
def serializeDoc (h : List (List Char × List Char)) (cs : List Card) : List Char :=
  (h.map headerLineS).flatten ++ (cs.map cardSerS).flatten

/-- The shape every header entry produced by a parse has (used by the
round-trip proof). -/
def WFentry (e : List Char × List Char) : Prop :=
  hasChar ':' e.1 = false ∧ stripCh e.1 = e.1 ∧ upperCh e.1 = e.1 ∧
    stripCh e.2 = e.2 ∧ startsWithCh ['#'] e.1 = false ∧
    nlFreeB e.1 = true ∧ nlFreeB e.2 = true ∧
    hasDash3 e.1 = false ∧ hasDash3 e.2 = false

/-- The shape every card produced by a parse has (used by the round-trip
proof). -/
def WFcard (c : Card) : Prop :=
  stripCh c.front = c.front ∧ stripCh c.back = c.back ∧ stripCh c.subdeck = c.subdeck ∧
    nlFreeB c.front = true ∧ nlFreeB c.back = true ∧ nlFreeB c.subdeck = true ∧
    hasDash3 c.front = false ∧ hasDash3 c.back = false ∧ hasDash3 c.subdeck = false ∧
    c.media_files = find_media_files c.front ∪ find_media_files c.back

/-- C9: a bare `FRONT:` marker line contributes the empty string as a
fragment, the emission test looks at the fragment lists (not the joined
strings), and so the input `---\nFRONT:\nBACK: b\n` yields a card whose
front string is empty. -/
theorem bare_marker_gives_empty_string_card :
    (parseCardFields [['F', 'R', 'O', 'N', 'T', ':']]).2.1 = [[]] ∧
    joinBr [[]] = [] ∧
    parseCh ("---\nFRONT:\nBACK: b\n".data) =
      ([], [{ front := [], back := ['b'], subdeck := [], media_files := ∅ }]) := by
  refine ⟨by decide, by decide, by decide⟩

/-- C10: the `---` delimiter is matched as a raw substring, not only as a
standalone line: a `---` inside a header line cuts that line at the
header/body boundary (the key part is lost, so the header comes out
empty), and a `---` inside a `FRONT:` content line cuts the body into two
blocks, each of which then lacks one field and is dropped. -/
theorem delimiter_is_raw_substring :
    splitDashOnce ("KEY---NAME: v\n---\nFRONT: a\nBACK: b\n".data) =
      ("KEY".data, some ("NAME: v\n---\nFRONT: a\nBACK: b\n".data)) ∧
    parseCh ("KEY---NAME: v\n---\nFRONT: a\nBACK: b\n".data) =
      ([], [{ front := ['a'], back := ['b'], subdeck := [], media_files := ∅ }]) ∧
    splitDashAll ("\nFRONT: a---b\nBACK: c\n".data) =
      ["\nFRONT: a".data, "b\nBACK: c\n".data] ∧
    parseCh ("H: v\n---\nFRONT: a---b\nBACK: c\n".data) =
      ([(['H'], ['v'])], []) := by
  refine ⟨by decide, by decide, by decide, by decide⟩

theorem dictGet_dictInsert : ∀ (d : List (List Char × List Char)) (k k' v : List Char),
    dictGet k (dictInsert k' v d) = if k' = k then some v else dictGet k d := by
  intro d
  induction d with
  | nil =>
    intro k k' v
    by_cases h : k' = k <;> simp [dictInsert, dictGet, h]
  | cons e t ih =>
    intro k k' v
    obtain ⟨k2, v2⟩ := e
    by_cases h1 : k2 = k'
    · subst h1
      by_cases h2 : k2 = k <;> simp [dictInsert, dictGet, h2]
    · by_cases h2 : k2 = k
      · subst h2
        have h4 : ¬ k' = k2 := fun h => h1 h.symm
        simp [dictInsert, dictGet, h1, h4]
      · simp [dictInsert, dictGet, h1, h2, ih]

theorem headerLineStep_entry (d : List (List Char × List Char)) (line : List Char) :
    headerLineStep d line =
      match headerEntry line with
      | some e => dictInsert e.1 e.2 d
      | none => d := by
  unfold headerLineStep headerEntry
  by_cases h : (hasChar ':' line && !(startsWithCh ['#'] (stripCh line))) = true <;> simp [h]

theorem dictGet_foldl_header : ∀ (lines : List (List Char))
    (d : List (List Char × List Char)) (k : List Char),
    dictGet k (lines.foldl headerLineStep d) =
      match lastWinsLookup k lines with
      | some v => some v
      | none => dictGet k d := by
  intro lines
  induction lines with
  | nil => intro d k; simp [lastWinsLookup]
  | cons l ls ih =>
    intro d k
    show dictGet k (ls.foldl headerLineStep (headerLineStep d l)) = _
    rw [ih, headerLineStep_entry]
    cases hls : lastWinsLookup k ls with
    | some v => simp [lastWinsLookup, hls]
    | none =>
      cases he : headerEntry l with
      | none => simp [lastWinsLookup, hls, he]
      | some e =>
        by_cases hk : e.1 = k <;>
          simp [lastWinsLookup, hls, he, dictGet_dictInsert, hk]

/-- C6: header parsing maps each colon-bearing, non-comment header line to
an entry keyed by the uppercased trimmed text before the first colon with
the trimmed text after it as value, the last duplicate wins, colon-free
lines are ignored, and a line whose first non-space character is `#` is
ignored even when it contains a colon. -/
theorem header_mapping_last_wins :
    (∀ content k, dictGet k (parseHeaderCh content) = lastWinsLookup k (splitlinesCh content)) ∧
    headerEntry (" # DECK_NAME: ignored".data) = none ∧
    headerEntry ("no colon line".data) = none ∧
    headerEntry (" dk : v ".data) = some ("DK".data, ['v']) ∧
    parseHeaderCh ("a: 1\nA: 2\nB: 3".data) = [("A".data, ['2']), (['B'], ['3'])] := by
  refine ⟨?_, by decide, by decide, by decide, by decide⟩
  intro content k
  rw [show parseHeaderCh content = (splitlinesCh content).foldl headerLineStep [] from rfl]
  rw [dictGet_foldl_header]
  cases lastWinsLookup k (splitlinesCh content) <;> simp [dictGet]

/-- C2: a block parsed as a card emits a card exactly when both the FRONT
and the BACK fragment lists are non-empty after parsing; a block with
only one of the two fields contributes no card (and no error is
possible: `cardOfBlock` is total). -/
theorem card_emitted_iff_both_fields :
    (∀ sub block, (cardOfBlock sub block).isSome = true ↔
      ((parseCardFields (splitlinesCh block)).2.1 ≠ [] ∧
       (parseCardFields (splitlinesCh block)).2.2 ≠ [])) ∧
    (∀ sub block, (parseCardFields (splitlinesCh block)).2.2 = [] →
      cardOfBlock sub block = none) ∧
    (∀ sub block, (parseCardFields (splitlinesCh block)).2.1 = [] →
      cardOfBlock sub block = none) ∧
    parseCh ("---\nFRONT: a\n".data) = ([], []) := by
  refine ⟨?_, ?_, ?_, by decide⟩
  · intro sub block
    by_cases h : ((parseCardFields (splitlinesCh block)).2.1 ≠ [] ∧
        (parseCardFields (splitlinesCh block)).2.2 ≠ []) <;>
      simp [cardOfBlock, h]
  · intro sub block h
    have h2 : ¬ ((parseCardFields (splitlinesCh block)).2.1 ≠ [] ∧
        (parseCardFields (splitlinesCh block)).2.2 ≠ []) := by
      intro hc
      exact hc.2 h
    simp [cardOfBlock, h2]
  · intro sub block h
    have h2 : ¬ ((parseCardFields (splitlinesCh block)).2.1 ≠ [] ∧
        (parseCardFields (splitlinesCh block)).2.2 ≠ []) := by
      intro hc
      exact hc.1 h
    simp [cardOfBlock, h2]

/-- Witness for C2 at concrete blocks: a FRONT-only block and a BACK-only
block yield no card, a block with both fields yields one. -/
theorem card_emitted_iff_both_fields_w :
    cardOfBlock [] ("FRONT: a".data) = none ∧
    cardOfBlock [] ("BACK: b".data) = none ∧
    (cardOfBlock [] ("FRONT: a\nBACK: b".data)).isSome = true := by
  refine ⟨card_emitted_iff_both_fields.2.1 [] ("FRONT: a".data) (by decide),
          card_emitted_iff_both_fields.2.2.1 [] ("BACK: b".data) (by decide),
          (card_emitted_iff_both_fields.1 [] ("FRONT: a\nBACK: b".data)).mpr (by decide)⟩

theorem cardLineStep_class (st : Option FieldTag × List (List Char) × List (List Char))
    (l : List Char) :
    cardLineStep st l =
      match lineClass l with
      | LineClass.skip => st
      | LineClass.marker FieldTag.front frag => (some FieldTag.front, st.2.1 ++ [frag], st.2.2)
      | LineClass.marker FieldTag.back frag => (some FieldTag.back, st.2.1, st.2.2 ++ [frag])
      | LineClass.content frag =>
        match st.1 with
        | some FieldTag.front => (st.1, st.2.1 ++ [frag], st.2.2)
        | some FieldTag.back => (st.1, st.2.1, st.2.2 ++ [frag])
        | none => st := by
  obtain ⟨cf, fa, ba⟩ := st
  by_cases h1 : (decide (stripCh l = []) || startsWithCh ['#'] (stripCh l)) = true
  · simp [cardLineStep, lineClass, h1]
  · by_cases h2 : startsWithCh ['F', 'R', 'O', 'N', 'T', ':'] (upperCh (stripCh l)) = true
    · simp [cardLineStep, lineClass, h1, h2]
    · by_cases h3 : startsWithCh ['B', 'A', 'C', 'K', ':'] (upperCh (stripCh l)) = true
      · simp [cardLineStep, lineClass, h1, h2, h3]
      · cases cf with
        | none => simp [cardLineStep, lineClass, h1, h2, h3]
        | some f => cases f <;> simp [cardLineStep, lineClass, h1, h2, h3]

theorem foldl_cardLineStep : ∀ (lines : List (List Char)) (cf : Option FieldTag)
    (fa ba : List (List Char)),
    lines.foldl cardLineStep (cf, fa, ba) =
      (lines.foldl cursorStep cf, fa ++ specFrags FieldTag.front cf lines,
        ba ++ specFrags FieldTag.back cf lines) := by
  intro lines
  induction lines with
  | nil => intro cf fa ba; simp [specFrags]
  | cons l ls ih =>
    intro cf fa ba
    show List.foldl cardLineStep (cardLineStep (cf, fa, ba) l) ls = _
    rw [cardLineStep_class]
    have hcur : List.foldl cursorStep cf (l :: ls) = List.foldl cursorStep (cursorStep cf l) ls := rfl
    cases hc : lineClass l with
    | skip =>
      rw [ih, hcur]
      simp [specFrags, cursorStep, hc]
    | marker g frag =>
      cases g with
      | front =>
        rw [ih, hcur]
        simp [specFrags, cursorStep, hc]
      | back =>
        rw [ih, hcur]
        simp [specFrags, cursorStep, hc]
    | content frag =>
      cases cf with
      | none =>
        rw [ih, hcur]
        simp [specFrags, cursorStep, hc]
      | some f =>
        cases f with
        | front =>
          rw [ih, hcur]
          simp [specFrags, cursorStep, hc]
        | back =>
          rw [ih, hcur]
          simp [specFrags, cursorStep, hc]

/-- C4: within a block, a (case-insensitive) `FRONT:`/`BACK:` line
switches the active field and seeds it with the trimmed remainder, every
other non-blank non-comment line is appended trimmed to the active
field, lines before any marker are discarded, and each emitted card's
field strings are the fragments joined with `<br>`. -/
theorem field_accumulation_spec :
    (∀ lines, (parseCardFields lines).2.1 = specFrags FieldTag.front none lines ∧
              (parseCardFields lines).2.2 = specFrags FieldTag.back none lines) ∧
    (∀ sub block c, cardOfBlock sub block = some c →
      c.front = joinBr ((parseCardFields (splitlinesCh block)).2.1) ∧
      c.back = joinBr ((parseCardFields (splitlinesCh block)).2.2)) ∧
    parseCh ("DECK_NAME: X\n---\nFRONT: a\nBACK: b\n".data) =
      ([("DECK_NAME".data, ['X'])],
        [{ front := ['a'], back := ['b'], subdeck := [], media_files := ∅ }]) := by
  refine ⟨?_, ?_, by decide⟩
  · intro lines
    have h := foldl_cardLineStep lines none [] []
    rw [show parseCardFields lines = lines.foldl cardLineStep (none, [], []) from rfl, h]
    simp
  · intro sub block c h
    by_cases hc : ((parseCardFields (splitlinesCh block)).2.1 ≠ [] ∧
        (parseCardFields (splitlinesCh block)).2.2 ≠ [])
    · simp [cardOfBlock, hc] at h
      rw [← h]
      exact ⟨rfl, rfl⟩
    · simp [cardOfBlock, hc] at h

/-- Witness for C4: a concrete block with a marker-seeded fragment and a
continuation line, whose card front is the `<br>`-join of its fragments. -/
theorem field_accumulation_spec_w :
    ({ front := "a<br>x".data, back := ['b'], subdeck := [],
       media_files := (∅ : Finset (List Char)) } : Card).front =
        joinBr ((parseCardFields (splitlinesCh ("FRONT: a\nx\nBACK: b".data))).2.1) ∧
    ({ front := "a<br>x".data, back := ['b'], subdeck := [],
       media_files := (∅ : Finset (List Char)) } : Card).back =
        joinBr ((parseCardFields (splitlinesCh ("FRONT: a\nx\nBACK: b".data))).2.2) :=
  field_accumulation_spec.2.1 [] ("FRONT: a\nx\nBACK: b".data)
    { front := "a<br>x".data, back := ['b'], subdeck := [],
      media_files := (∅ : Finset (List Char)) } (by decide)

theorem specCardsPos_cons (sub0 : List Char) (b : List Char) (bs : List (List Char)) :
    specCardsPos sub0 (b :: bs) =
      (blockCard sub0 b).toList ++ specCardsPos (subStep sub0 b) bs := by
  unfold specCardsPos
  rw [show (b :: bs).length = bs.length + 1 from rfl, List.range_succ_eq_map,
    List.filterMap_cons, List.filterMap_map]
  have hfun : ((fun i => blockCard (subdeckAt sub0 ((b :: bs).take i)) ((b :: bs).getD i [])) ∘
      Nat.succ) = fun i => blockCard (subdeckAt (subStep sub0 b) (bs.take i)) (bs.getD i []) :=
    funext fun i => rfl
  rw [hfun]
  have hz : blockCard (subdeckAt sub0 (List.take 0 (b :: bs))) ((b :: bs).getD 0 []) =
      blockCard sub0 b := rfl
  rw [hz]
  cases hb : blockCard sub0 b with
  | none => simp
  | some c => simp

theorem processBlocks_eq_specCardsPos : ∀ (bs : List (List Char)) (sub : List Char),
    processBlocks sub bs = specCardsPos sub bs := by
  intro bs
  induction bs with
  | nil => intro sub; simp [processBlocks, specCardsPos]
  | cons b bs ih =>
    intro sub
    rw [specCardsPos_cons]
    by_cases h1 : stripCh b = []
    · simp [processBlocks, blockCard, subStep, h1, ih]
    · by_cases h2 : isSubdeckLine (stripCh ((splitlinesCh (stripCh b)).head?.getD [])) = true
      · simp [processBlocks, blockCard, subStep, h1, h2, ih]
      · cases hc : cardOfBlock sub (stripCh b) <;>
          simp [processBlocks, blockCard, subStep, h1, h2, hc, ih]

/-- C1: every card carries as `subdeck` the value of the most recent
`SUBDECK:` directive among the blocks preceding it (the empty string
before any directive), directive blocks yield no card, and an empty
directive resets the subdeck to the empty string — checked on the
spec's example, where the two cards get subdecks `Chapter1` and `""`. -/
theorem subdeck_positional :
    (∀ content, (parseCh content).2 =
        specCardsPos [] (splitDashAll (((splitDashOnce content).2).getD []))) ∧
    (parseCh ("---\nSUBDECK: Chapter1\n---\nFRONT: q\nBACK: r\n---\nSUBDECK:\n---\nFRONT: s\nBACK: t\n".data)).2.map
        Card.subdeck = ["Chapter1".data, []] := by
  refine ⟨?_, by decide⟩
  intro content
  exact processBlocks_eq_specCardsPos _ _

theorem cardOfBlock_media (sub b : List Char) (c : Card) (h : cardOfBlock sub b = some c) :
    c.media_files = find_media_files c.front ∪ find_media_files c.back := by
  by_cases hc : ((parseCardFields (splitlinesCh b)).2.1 ≠ [] ∧
      (parseCardFields (splitlinesCh b)).2.2 ≠ [])
  · simp [cardOfBlock, hc] at h
    rw [← h]
  · simp [cardOfBlock, hc] at h

theorem mem_processBlocks_media : ∀ (bs : List (List Char)) (sub : List Char) (c : Card),
    c ∈ processBlocks sub bs →
    c.media_files = find_media_files c.front ∪ find_media_files c.back := by
  intro bs
  induction bs with
  | nil => intro sub c h; simp [processBlocks] at h
  | cons b bs ih =>
    intro sub c h
    by_cases h1 : stripCh b = []
    · rw [show processBlocks sub (b :: bs) = processBlocks sub bs by simp [processBlocks, h1]] at h
      exact ih sub c h
    · by_cases h2 : isSubdeckLine (stripCh ((splitlinesCh (stripCh b)).head?.getD [])) = true
      · rw [show processBlocks sub (b :: bs) =
            processBlocks (subdeckValue (stripCh ((splitlinesCh (stripCh b)).head?.getD []))) bs by
          simp [processBlocks, h1, h2]] at h
        exact ih _ c h
      · cases hc : cardOfBlock sub (stripCh b) with
        | none =>
          rw [show processBlocks sub (b :: bs) = processBlocks sub bs by
            simp [processBlocks, h1, h2, hc]] at h
          exact ih sub c h
        | some c0 =>
          rw [show processBlocks sub (b :: bs) = c0 :: processBlocks sub bs by
            simp [processBlocks, h1, h2, hc]] at h
          rcases List.mem_cons.mp h with h3 | h3
          · subst h3
            exact cardOfBlock_media sub (stripCh b) c hc
          · exact ih sub c h3

/-- C5: every emitted card's `media_files` is the union of the media
references found by scanning the assembled front text and the assembled
back text independently; on the spec's example front the result is
exactly the two referenced file names. -/
theorem media_files_is_union_of_scans :
    (∀ content c, c ∈ (parseCh content).2 →
      c.media_files = find_media_files c.front ∪ find_media_files c.back) ∧
    find_media_files ("see <img src=\"diagram.png\"> and [sound:clip.mp3]".data) =
      {"diagram.png".data, "clip.mp3".data} := by
  refine ⟨?_, by decide⟩
  intro content c h
  exact mem_processBlocks_media _ _ _ h

/-- Witness for C5 at a concrete input containing one image and one
sound reference. -/
theorem media_files_is_union_of_scans_w :
    ({ front := "<img src=\"a.png\">".data, back := "[sound:b.mp3]".data, subdeck := [],
       media_files := {"a.png".data, "b.mp3".data} } : Card).media_files =
      find_media_files ("<img src=\"a.png\">".data) ∪
        find_media_files ("[sound:b.mp3]".data) :=
  media_files_is_union_of_scans.1
    ("---\nFRONT: <img src=\"a.png\">\nBACK: [sound:b.mp3]\n".data)
    { front := "<img src=\"a.png\">".data, back := "[sound:b.mp3]".data, subdeck := [],
      media_files := {"a.png".data, "b.mp3".data} } (by decide)

theorem startsWith_dash3_iff (t : List Char) :
    startsWithCh ['-', '-', '-'] t = true ↔ ∃ y, t = '-' :: '-' :: '-' :: y := by
  rcases t with _ | ⟨c, _ | ⟨d, _ | ⟨e, y⟩⟩⟩ <;> simp [startsWithCh]
  constructor
  · rintro ⟨hc, hd, he⟩
    exact ⟨hc.symm, hd.symm, he.symm⟩
  · rintro ⟨hc, hd, he⟩
    exact ⟨hc.symm, hd.symm, he.symm⟩

theorem nomatch_iff_not_dash3 (c : Char) (cs : List Char) :
    (∀ (rest : List Char), c = '-' → cs = '-' :: '-' :: rest → False) ↔
      startsWithCh ['-', '-', '-'] (c :: cs) = false := by
  constructor
  · intro h
    cases hs : startsWithCh ['-', '-', '-'] (c :: cs) with
    | false => rfl
    | true =>
      obtain ⟨y, hy⟩ := (startsWith_dash3_iff (c :: cs)).mp hs
      cases hy
      exact (h y rfl rfl).elim
  · intro h rest hc hcs
    subst hc
    subst hcs
    simp [startsWithCh] at h

theorem hasDash3_cons_eq (c : Char) (cs : List Char)
    (h : startsWithCh ['-', '-', '-'] (c :: cs) = false) :
    hasDash3 (c :: cs) = hasDash3 cs := by
  simp [hasDash3, h]

theorem splitDashOnce_some_decomp : ∀ (t a r : List Char), splitDashOnce t = (a, some r) →
    t = a ++ '-' :: '-' :: '-' :: r ∧ hasDash3 (a ++ ['-', '-']) = false := by
  intro t
  induction t using splitDashOnce.induct with
  | case1 rest =>
    intro a r h
    rw [splitDashOnce.eq_1, Prod.mk.injEq] at h
    obtain ⟨h1, h2⟩ := h
    cases h1
    cases h2
    exact ⟨rfl, by decide⟩
  | case2 c cs h1 ih =>
    intro a r h
    rw [splitDashOnce.eq_2 c cs h1, Prod.mk.injEq] at h
    obtain ⟨ha, hr⟩ := h
    have hsplit : splitDashOnce cs = ((splitDashOnce cs).1, some r) := by
      rw [← hr]
    obtain ⟨ht, hd⟩ := ih (splitDashOnce cs).1 r hsplit
    have hsw : startsWithCh ['-', '-', '-'] (c :: ((splitDashOnce cs).1 ++ ['-', '-'])) = false := by
      cases hs : startsWithCh ['-', '-', '-'] (c :: ((splitDashOnce cs).1 ++ ['-', '-'])) with
      | false => rfl
      | true =>
        obtain ⟨y, hy⟩ := (startsWith_dash3_iff _).mp hs
        exfalso
        rcases hp : (splitDashOnce cs).1 with _ | ⟨x, _ | ⟨x2, p2⟩⟩ <;> rw [hp] at hy ht
        · obtain ⟨hc, -⟩ : c = '-' ∧ ('-' : Char) = '-' := by
            rw [List.nil_append] at hy
            exact ⟨(List.cons.injEq .. ▸ hy).1, rfl⟩
          exact h1 ('-' :: r) hc (by rw [ht]; rfl)
        · obtain ⟨hc, hx, -⟩ : c = '-' ∧ x = '-' ∧ True := by
            simp at hy
            exact ⟨hy.1, hy.2.1, trivial⟩
          exact h1 ('-' :: '-' :: r) hc (by rw [ht, hx]; rfl)
        · obtain ⟨hc, hx, hx2⟩ : c = '-' ∧ x = '-' ∧ x2 = '-' := by
            simp at hy
            exact ⟨hy.1, hy.2.1, hy.2.2.1⟩
          exact h1 (p2 ++ '-' :: '-' :: '-' :: r) hc (by rw [ht, hx, hx2]; simp)
    constructor
    · rw [← ha]
      exact congrArg (List.cons c) ht
    · rw [← ha]
      rw [show (c :: (splitDashOnce cs).1) ++ ['-', '-'] =
          c :: ((splitDashOnce cs).1 ++ ['-', '-']) from rfl]
      rw [hasDash3_cons_eq _ _ hsw]
      exact hd
  | case3 =>
    intro a r h
    rw [splitDashOnce.eq_3, Prod.mk.injEq] at h
    exact absurd h.2 (by simp)

theorem splitDashOnce_of_no_dash3 : ∀ (t : List Char), hasDash3 t = false →
    splitDashOnce t = (t, none) := by
  intro t
  induction t using splitDashOnce.induct with
  | case1 rest =>
    intro h
    simp [hasDash3, startsWithCh] at h
  | case2 c cs h1 ih =>
    intro h
    have hsw := (nomatch_iff_not_dash3 c cs).mp h1
    rw [hasDash3_cons_eq c cs hsw] at h
    rw [splitDashOnce.eq_2 c cs h1, ih h]
  | case3 =>
    intro h
    rfl

theorem joinWith_cons_cons (sep x p : List Char) (ps : List (List Char)) :
    joinWith sep (x :: p :: ps) = x ++ sep ++ joinWith sep (p :: ps) := by
  simp [joinWith]

theorem splitDashAll_ne_nil : ∀ t, splitDashAll t ≠ [] := by
  intro t
  induction t using splitDashAll.induct with
  | case1 rest ih =>
    rw [splitDashAll.eq_1]
    simp
  | case2 c cs h1 ih =>
    rw [splitDashAll.eq_2 c cs h1]
    cases splitDashAll cs with
    | nil => simp [consHead]
    | cons p ps => simp [consHead]
  | case3 =>
    rw [splitDashAll.eq_3]
    simp

theorem joinWith_splitDashAll : ∀ t, joinWith ['-', '-', '-'] (splitDashAll t) = t := by
  intro t
  induction t using splitDashAll.induct with
  | case1 rest ih =>
    rw [splitDashAll.eq_1]
    obtain ⟨p, ps, hps⟩ : ∃ p ps, splitDashAll rest = p :: ps := by
      cases h : splitDashAll rest with
      | nil => exact absurd h (splitDashAll_ne_nil rest)
      | cons p ps => exact ⟨p, ps, rfl⟩
    rw [hps]
    rw [joinWith_cons_cons]
    rw [hps] at ih
    rw [ih]
    rfl
  | case2 c cs h1 ih =>
    rw [splitDashAll.eq_2 c cs h1]
    obtain ⟨p, ps, hps⟩ : ∃ p ps, splitDashAll cs = p :: ps := by
      cases h : splitDashAll cs with
      | nil => exact absurd h (splitDashAll_ne_nil cs)
      | cons p ps => exact ⟨p, ps, rfl⟩
    rw [hps]
    rw [hps] at ih
    show joinWith ['-', '-', '-'] ((c :: p) :: ps) = c :: cs
    rw [← ih]
    simp [joinWith]
  | case3 =>
    rfl

theorem splitDashAll_parts : ∀ t, ∀ p ∈ splitDashAll t, hasDash3 p = false := by
  intro t
  induction t using splitDashAll.induct with
  | case1 rest ih =>
    intro p hp
    rw [splitDashAll.eq_1] at hp
    rcases List.mem_cons.mp hp with h | h
    · rw [h]; rfl
    · exact ih p h
  | case2 c cs h1 ih =>
    intro p hp
    rw [splitDashAll.eq_2 c cs h1] at hp
    obtain ⟨p0, ps, hps⟩ : ∃ p0 ps, splitDashAll cs = p0 :: ps := by
      cases h : splitDashAll cs with
      | nil => exact absurd h (splitDashAll_ne_nil cs)
      | cons p0 ps => exact ⟨p0, ps, rfl⟩
    rw [hps] at hp
    have hcs : cs = p0 ++ (ps.map (fun q => ['-', '-', '-'] ++ q)).flatten := by
      have hj := joinWith_splitDashAll cs
      rw [hps] at hj
      simpa [joinWith] using hj.symm
    rcases List.mem_cons.mp hp with h | h
    · subst h
      have hp0 : hasDash3 p0 = false := ih p0 (by rw [hps]; exact List.mem_cons_self ..)
      have hsw : startsWithCh ['-', '-', '-'] (c :: p0) = false := by
        cases hs : startsWithCh ['-', '-', '-'] (c :: p0) with
        | false => rfl
        | true =>
          obtain ⟨y, hy⟩ := (startsWith_dash3_iff _).mp hs
          obtain ⟨hc, hrest⟩ : c = '-' ∧ p0 = '-' :: '-' :: y := by
            rw [List.cons.injEq] at hy
            exact ⟨hy.1, hy.2⟩
          exact (h1 (y ++ (ps.map (fun q => ['-', '-', '-'] ++ q)).flatten) hc
            (by rw [hcs, hrest]; rfl)).elim
      rw [hasDash3_cons_eq c p0 hsw]
      exact hp0
    · exact ih p (by rw [hps]; exact List.mem_cons_of_mem _ h)
  | case3 =>
    intro p hp
    rw [splitDashAll.eq_3] at hp
    rcases List.mem_cons.mp hp with h | h
    · rw [h]; rfl
    · simp at h

theorem no_dash3_head_parts (c : Char) (p' : List Char)
    (hp : hasDash3 ((c :: p') ++ ['-', '-']) = false) :
    startsWithCh ['-', '-', '-'] (c :: (p' ++ ['-', '-'])) = false ∧
      hasDash3 (p' ++ ['-', '-']) = false := by
  rw [show (c :: p') ++ ['-', '-'] = c :: (p' ++ ['-', '-']) from rfl] at hp
  rw [show hasDash3 (c :: (p' ++ ['-', '-'])) =
    (startsWithCh ['-', '-', '-'] (c :: (p' ++ ['-', '-'])) ||
      hasDash3 (p' ++ ['-', '-'])) from rfl] at hp
  exact ⟨(Bool.or_eq_false_iff.mp hp).1, (Bool.or_eq_false_iff.mp hp).2⟩

theorem nomatch_of_clean_boundary (c : Char) (p' rest : List Char)
    (hsw : startsWithCh ['-', '-', '-'] (c :: (p' ++ ['-', '-'])) = false) :
    ∀ (r2 : List Char), c = '-' → p' ++ '-' :: '-' :: '-' :: rest = '-' :: '-' :: r2 → False := by
  intro r2 hc hst
  rcases p' with _ | ⟨x, _ | ⟨y, p''⟩⟩
  · subst hc
    simp [startsWithCh] at hsw
  · obtain ⟨hx, -⟩ : x = '-' ∧ True := by
      have hst' : x :: ('-' :: '-' :: '-' :: rest) = '-' :: '-' :: r2 := hst
      rw [List.cons.injEq] at hst'
      exact ⟨hst'.1, trivial⟩
    subst hc
    subst hx
    simp [startsWithCh] at hsw
  · obtain ⟨hx, hy⟩ : x = '-' ∧ y = '-' := by
      have hst' : x :: y :: (p'' ++ '-' :: '-' :: '-' :: rest) = '-' :: '-' :: r2 := hst
      rw [List.cons.injEq] at hst'
      obtain ⟨h1, h2⟩ := hst'
      rw [List.cons.injEq] at h2
      exact ⟨h1, h2.1⟩
    subst hc
    subst hx
    subst hy
    simp [startsWithCh] at hsw

theorem splitDashOnce_append (p rest : List Char)
    (hp : hasDash3 (p ++ ['-', '-']) = false) :
    splitDashOnce (p ++ '-' :: '-' :: '-' :: rest) = (p, some rest) := by
  induction p with
  | nil => exact splitDashOnce.eq_1 rest
  | cons c p' ih =>
    obtain ⟨hsw, hp'⟩ := no_dash3_head_parts c p' hp
    rw [show (c :: p') ++ '-' :: '-' :: '-' :: rest =
      c :: (p' ++ '-' :: '-' :: '-' :: rest) from rfl]
    rw [splitDashOnce.eq_2 _ _ (nomatch_of_clean_boundary c p' rest hsw)]
    rw [ih hp']

theorem splitDashAll_append (p rest : List Char)
    (hp : hasDash3 (p ++ ['-', '-']) = false) :
    splitDashAll (p ++ '-' :: '-' :: '-' :: rest) = p :: splitDashAll rest := by
  induction p with
  | nil => exact splitDashAll.eq_1 rest
  | cons c p' ih =>
    obtain ⟨hsw, hp'⟩ := no_dash3_head_parts c p' hp
    rw [show (c :: p') ++ '-' :: '-' :: '-' :: rest =
      c :: (p' ++ '-' :: '-' :: '-' :: rest) from rfl]
    rw [splitDashAll.eq_2 _ _ (nomatch_of_clean_boundary c p' rest hsw)]
    rw [ih hp']
    rfl

theorem splitDashAll_no_dash3 : ∀ (t : List Char), hasDash3 t = false →
    splitDashAll t = [t] := by
  intro t
  induction t using splitDashAll.induct with
  | case1 rest ih =>
    intro h
    simp [hasDash3, startsWithCh] at h
  | case2 c cs h1 ih =>
    intro h
    have hsw := (nomatch_iff_not_dash3 c cs).mp h1
    rw [hasDash3_cons_eq c cs hsw] at h
    rw [splitDashAll.eq_2 c cs h1, ih h]
    rfl
  | case3 =>
    intro h
    rfl

/-- C3: the parse splits header from body on only the FIRST `---`
occurrence (the header part is the longest delimiter-free region, even
counting occurrences that straddle its end), the body is split on EVERY
occurrence (the parts are delimiter-free and reassemble to the body with
the delimiter), and a text in which `---` never occurs is all header and
yields zero cards. -/
theorem split_first_then_every :
    (∀ content, hasDash3 content = false →
      parseCh content = (parseHeaderCh content, [])) ∧
    (∀ content a r, splitDashOnce content = (a, some r) →
      content = a ++ '-' :: '-' :: '-' :: r ∧ hasDash3 (a ++ ['-', '-']) = false) ∧
    (∀ content r, (splitDashOnce content).2 = some r →
      joinWith ['-', '-', '-'] (splitDashAll r) = r ∧
        ∀ p ∈ splitDashAll r, hasDash3 p = false) := by
  refine ⟨?_, ?_, ?_⟩
  · intro content h
    unfold parseCh
    rw [splitDashOnce_of_no_dash3 content h]
    rfl
  · exact fun content => splitDashOnce_some_decomp content
  · intro content r h
    exact ⟨joinWith_splitDashAll r, splitDashAll_parts r⟩

/-- Witness for C3 at concrete inputs with and without the delimiter. -/
theorem split_first_then_every_w :
    parseCh ("just a header".data) = (parseHeaderCh ("just a header".data), []) ∧
    ("ab---cd".data = "ab".data ++ '-' :: '-' :: '-' :: "cd".data ∧
      hasDash3 ("ab".data ++ ['-', '-']) = false) ∧
    (joinWith ['-', '-', '-'] (splitDashAll ("x---y".data)) = "x---y".data ∧
      ∀ p ∈ splitDashAll ("x---y".data), hasDash3 p = false) :=
  ⟨split_first_then_every.1 ("just a header".data) (by decide),
   split_first_then_every.2.1 ("ab---cd".data) ("ab".data) ("cd".data) (by decide),
   split_first_then_every.2.2 ("w---x---y".data) ("x---y".data) (by decide)⟩

theorem char_ofNat_toNat_of_le (n : Nat) (h1 : 65 ≤ n) (h2 : n ≤ 90) :
    (Char.ofNat n).toNat = n := by
  interval_cases n <;> decide

theorem pyUpper_eq_low {c d : Char} (hd : d.toNat < 65) (h : pyUpper c = d) : c = d := by
  unfold pyUpper at h
  split at h
  · rename_i hc
    have h65 : 65 ≤ c.toNat - 32 := by omega
    have h90 : c.toNat - 32 ≤ 90 := by omega
    have := char_ofNat_toNat_of_le (c.toNat - 32) h65 h90
    rw [h] at this
    omega
  · exact h

theorem pyUpper_toNat_large {c : Char} (hc : 97 ≤ c.toNat ∧ c.toNat ≤ 122) :
    (pyUpper c).toNat = c.toNat - 32 := by
  unfold pyUpper
  rw [if_pos hc]
  exact char_ofNat_toNat_of_le _ (by omega) (by omega)

theorem pyUpper_idem (c : Char) : pyUpper (pyUpper c) = pyUpper c := by
  by_cases hc : 97 ≤ c.toNat ∧ c.toNat ≤ 122
  · have h1 : (pyUpper c).toNat = c.toNat - 32 := pyUpper_toNat_large hc
    rw [show pyUpper (pyUpper c) =
      (if 97 ≤ (pyUpper c).toNat ∧ (pyUpper c).toNat ≤ 122 then
        Char.ofNat ((pyUpper c).toNat - 32) else pyUpper c) from rfl]
    rw [if_neg (by omega)]
  · have h2 : pyUpper c = c := by
      unfold pyUpper
      rw [if_neg hc]
    rw [h2, h2]

theorem splitColonOnce_isSome : ∀ (l : List Char), hasChar ':' l = true →
    (splitColonOnce l).2.isSome = true := by
  intro l
  induction l using splitColonOnce.induct with
  | case1 => intro h; simp [hasChar] at h
  | case2 rest => intro h; simp [splitColonOnce]
  | case3 c cs hc ih =>
    intro h
    simp only [hasChar, Bool.or_eq_true, beq_iff_eq] at h
    rcases h with h | h
    · exact absurd h hc
    · simp only [splitColonOnce]
      exact ih h

theorem consHead_ne_nil (c : Char) (ps : List (List Char)) : consHead c ps ≠ [] := by
  cases ps <;> simp [consHead]

theorem splitlinesCh_ne_nil : ∀ (l : List Char), l ≠ [] → splitlinesCh l ≠ [] := by
  intro l
  induction l using splitlinesCh.induct with
  | case1 => intro h; exact absurd rfl h
  | case2 rest ih => intro h; rw [splitlinesCh.eq_2]; simp
  | case3 rest ih => intro h; rw [splitlinesCh.eq_3]; simp
  | case4 rest h1 ih => intro h; rw [splitlinesCh.eq_4 _ h1]; simp
  | case5 c rest h1 h2 h3 ih =>
    intro h
    rw [splitlinesCh.eq_5 _ _ h1 h2 h3]
    exact consHead_ne_nil c (splitlinesCh rest)

theorem isSubdeckLine_hasColon (l : List Char) (h : isSubdeckLine l = true) :
    hasChar ':' l = true := by
  rcases l with _ | ⟨c1, _ | ⟨c2, _ | ⟨c3, _ | ⟨c4, _ | ⟨c5, _ | ⟨c6, _ | ⟨c7, _ | ⟨c8, rest⟩⟩⟩⟩⟩⟩⟩⟩ <;>
    simp [isSubdeckLine, upperCh, startsWithCh] at h
  have hc8 : c8 = ':' := pyUpper_eq_low (by decide) (h.2.2.2.2.2.2.2).symm
  subst hc8
  simp [hasChar]

theorem headerLineStepChecked_eq (d : List (List Char × List Char)) (l : List Char) :
    headerLineStepChecked d l = some (headerLineStep d l) := by
  by_cases h : (hasChar ':' l && !(startsWithCh ['#'] (stripCh l))) = true
  · have hcolon : hasChar ':' l = true := (Bool.and_eq_true .. ▸ h).1
    have hsome := splitColonOnce_isSome l hcolon
    obtain ⟨v, hv⟩ := Option.isSome_iff_exists.mp hsome
    unfold headerLineStepChecked headerLineStep
    rw [if_pos h, if_pos h]
    have hpair : splitColonOnce l = ((splitColonOnce l).1, some v) := by
      rw [← hv]
    rw [hpair]
    simp
  · unfold headerLineStepChecked headerLineStep
    rw [if_neg h, if_neg h]

theorem foldlM_headerLineStepChecked : ∀ (lines : List (List Char))
    (d : List (List Char × List Char)),
    lines.foldlM headerLineStepChecked d = some (lines.foldl headerLineStep d) := by
  intro lines
  induction lines with
  | nil => intro d; rfl
  | cons l ls ih =>
    intro d
    rw [List.foldlM_cons, headerLineStepChecked_eq]
    show ls.foldlM headerLineStepChecked (headerLineStep d l) = _
    rw [ih]
    rfl

theorem processBlocksChecked_eq : ∀ (bs : List (List Char)) (sub : List Char),
    processBlocksChecked sub bs = some (processBlocks sub bs) := by
  intro bs
  induction bs with
  | nil => intro sub; rfl
  | cons b bs ih =>
    intro sub
    by_cases h1 : stripCh b = []
    · rw [show processBlocksChecked sub (b :: bs) = processBlocksChecked sub bs by
        simp [processBlocksChecked, h1]]
      rw [show processBlocks sub (b :: bs) = processBlocks sub bs by
        simp [processBlocks, h1]]
      exact ih sub
    · obtain ⟨fl0, ls0, hls⟩ : ∃ fl0 ls0, splitlinesCh (stripCh b) = fl0 :: ls0 := by
        cases h : splitlinesCh (stripCh b) with
        | nil => exact absurd h (splitlinesCh_ne_nil (stripCh b) h1)
        | cons fl0 ls0 => exact ⟨fl0, ls0, rfl⟩
      by_cases h2 : isSubdeckLine (stripCh fl0) = true
      · have hcolon := isSubdeckLine_hasColon (stripCh fl0) h2
        obtain ⟨v, hv⟩ := Option.isSome_iff_exists.mp (splitColonOnce_isSome _ hcolon)
        rw [show processBlocksChecked sub (b :: bs) =
            processBlocksChecked (stripCh v) bs by
          simp [processBlocksChecked, h1, hls, h2, hv]]
        rw [show processBlocks sub (b :: bs) =
            processBlocks (subdeckValue (stripCh fl0)) bs by
          simp [processBlocks, h1, hls, h2]]
        rw [show subdeckValue (stripCh fl0) = stripCh v by
          simp [subdeckValue, hv]]
        exact ih _
      · cases hc : cardOfBlock sub (stripCh b) with
        | none =>
          rw [show processBlocksChecked sub (b :: bs) = processBlocksChecked sub bs by
            simp [processBlocksChecked, h1, hls, h2, hc]]
          rw [show processBlocks sub (b :: bs) = processBlocks sub bs by
            simp [processBlocks, h1, hls, h2, hc]]
          exact ih sub
        | some c =>
          rw [show processBlocksChecked sub (b :: bs) =
              (processBlocksChecked sub bs).map (fun l => c :: l) by
            simp [processBlocksChecked, h1, hls, h2, hc]]
          rw [show processBlocks sub (b :: bs) = c :: processBlocks sub bs by
            simp [processBlocks, h1, hls, h2, hc]]
          rw [ih sub]
          rfl

theorem parseHeaderChChecked_eq (hc : List Char) :
    parseHeaderChChecked hc = some (parseHeaderCh hc) :=
  foldlM_headerLineStepChecked (splitlinesCh hc) []

/-- C7: the parser is total — with every partial indexing/destructuring
operation of the source made explicit in an `Option`-valued variant, the
checked parse always succeeds and returns exactly the parse result, for
every input string. -/
theorem parser_never_raises :
    ∀ content, parseChChecked content = some (parseCh content) := by
  intro content
  have h1 := parseHeaderChChecked_eq (splitDashOnce content).1
  have h2 := processBlocksChecked_eq (splitDashAll ((splitDashOnce content).2.getD [])) []
  rw [show parseChChecked content =
      ((parseHeaderChChecked (splitDashOnce content).1).bind (fun h =>
        (processBlocksChecked [] (splitDashAll ((splitDashOnce content).2.getD []))).bind
          (fun cs => some (h, cs)))) from rfl, h1, h2]
  rfl

theorem hasChar_eq_true_iff (a : Char) (l : List Char) : hasChar a l = true ↔ a ∈ l := by
  induction l with
  | nil => simp [hasChar]
  | cons c cs ih =>
    simp only [hasChar, Bool.or_eq_true, beq_iff_eq, ih, List.mem_cons]
    constructor
    · rintro (h | h)
      · exact Or.inl h.symm
      · exact Or.inr h
    · rintro (h | h)
      · exact Or.inl h.symm
      · exact Or.inr h

theorem hasChar_eq_false_iff (a : Char) (l : List Char) : hasChar a l = false ↔ a ∉ l := by
  rw [← hasChar_eq_true_iff a l]
  cases hasChar a l <;> simp

theorem nlFreeB_iff (l : List Char) : nlFreeB l = true ↔ ∀ c ∈ l, c ≠ '\n' ∧ c ≠ '\r' := by
  simp [nlFreeB, List.all_eq_true]

theorem nlFreeB_sublist {a b : List Char} (h : a.Sublist b) (hb : nlFreeB b = true) :
    nlFreeB a = true := by
  rw [nlFreeB_iff] at *
  exact fun c hc => hb c (h.subset hc)

theorem startsWithCh_self_append : ∀ (p z : List Char), startsWithCh p (p ++ z) = true := by
  intro p
  induction p with
  | nil => intro z; rfl
  | cons c ps ih => intro z; simp [startsWithCh, ih]

theorem startsWithCh_false_head {p c : Char} (ps cs : List Char) (h : p ≠ c) :
    startsWithCh (p :: ps) (c :: cs) = false := by
  simp [startsWithCh, h]

theorem sw3_false_of_head {c : Char} (cs : List Char) (h : c ≠ '-') :
    startsWithCh ['-', '-', '-'] (c :: cs) = false :=
  startsWithCh_false_head _ _ (fun he => h he.symm)

theorem hasDash3_iff (t : List Char) :
    hasDash3 t = true ↔ ∃ x y, t = x ++ '-' :: '-' :: '-' :: y := by
  induction t with
  | nil =>
    simp [hasDash3]
  | cons c cs ih =>
    rw [show hasDash3 (c :: cs) =
      (startsWithCh ['-', '-', '-'] (c :: cs) || hasDash3 cs) from rfl]
    rw [Bool.or_eq_true, startsWith_dash3_iff, ih]
    constructor
    · rintro (⟨y, hy⟩ | ⟨x, y, hxy⟩)
      · exact ⟨[], y, hy⟩
      · exact ⟨c :: x, y, by rw [hxy]; rfl⟩
    · rintro ⟨x, y, hxy⟩
      cases x with
      | nil => exact Or.inl ⟨y, hxy⟩
      | cons d x' =>
        have h2 : c :: cs = d :: (x' ++ '-' :: '-' :: '-' :: y) := hxy
        rw [List.cons.injEq] at h2
        exact Or.inr ⟨x', y, h2.2⟩

theorem hasDash3_mono_append {a : List Char} (z : List Char) (h : hasDash3 a = true) :
    hasDash3 (a ++ z) = true := by
  rw [hasDash3_iff] at h ⊢
  obtain ⟨x, y, rfl⟩ := h
  exact ⟨x, y ++ z, by simp⟩

theorem hasDash3_mono_left {a : List Char} (z : List Char) (h : hasDash3 a = true) :
    hasDash3 (z ++ a) = true := by
  rw [hasDash3_iff] at h ⊢
  obtain ⟨x, y, rfl⟩ := h
  exact ⟨z ++ x, y, by simp⟩

theorem hasDash3_within {a b : List Char} (hab : a <:+: b) (hb : hasDash3 b = false) :
    hasDash3 a = false := by
  cases ha : hasDash3 a with
  | false => rfl
  | true =>
    obtain ⟨u, w, huw⟩ := hab
    rw [← huw] at hb
    have h2 : hasDash3 (u ++ a ++ w) = true :=
      hasDash3_mono_append w (hasDash3_mono_left u ha)
    rw [h2] at hb
    simp at hb

theorem hasDash3_cons_false (c : Char) (cs : List Char)
    (h1 : startsWithCh ['-', '-', '-'] (c :: cs) = false) (h2 : hasDash3 cs = false) :
    hasDash3 (c :: cs) = false := by
  rw [show hasDash3 (c :: cs) =
    (startsWithCh ['-', '-', '-'] (c :: cs) || hasDash3 cs) from rfl, h1, h2]
  rfl

theorem hasDash3_parts (c : Char) (cs : List Char) (h : hasDash3 (c :: cs) = false) :
    startsWithCh ['-', '-', '-'] (c :: cs) = false ∧ hasDash3 cs = false := by
  rw [show hasDash3 (c :: cs) =
    (startsWithCh ['-', '-', '-'] (c :: cs) || hasDash3 cs) from rfl] at h
  exact ⟨(Bool.or_eq_false_iff.mp h).1, (Bool.or_eq_false_iff.mp h).2⟩

theorem hasDash3_append_head (a b : List Char) (ha : hasDash3 a = false)
    (hb : hasDash3 b = false) (hh : ∀ c, b.head? = some c → c ≠ '-') :
    hasDash3 (a ++ b) = false := by
  induction a with
  | nil => simpa using hb
  | cons c a' ih =>
    obtain ⟨hsw, ha'⟩ := hasDash3_parts c a' ha
    rw [show (c :: a') ++ b = c :: (a' ++ b) from rfl]
    refine hasDash3_cons_false _ _ ?_ (ih ha')
    cases hs : startsWithCh ['-', '-', '-'] (c :: (a' ++ b)) with
    | false => rfl
    | true =>
      exfalso
      obtain ⟨y, hy⟩ := (startsWith_dash3_iff _).mp hs
      rcases a' with _ | ⟨x1, _ | ⟨x2, a''⟩⟩
      · have h2 : c :: b = '-' :: '-' :: '-' :: y := hy
        rw [List.cons.injEq] at h2
        exact hh '-' (by rw [h2.2]; rfl) rfl
      · have h2 : c :: x1 :: b = '-' :: '-' :: '-' :: y := hy
        rw [List.cons.injEq] at h2
        obtain ⟨-, h3⟩ := h2
        rw [List.cons.injEq] at h3
        exact hh '-' (by rw [h3.2]; rfl) rfl
      · have h2 : c :: x1 :: x2 :: (a'' ++ b) = '-' :: '-' :: '-' :: y := hy
        rw [List.cons.injEq] at h2
        obtain ⟨hc, h3⟩ := h2
        rw [List.cons.injEq] at h3
        obtain ⟨hx1, h4⟩ := h3
        rw [List.cons.injEq] at h4
        obtain ⟨hx2, -⟩ := h4
        rw [hc, hx1, hx2] at hsw
        simp [startsWithCh] at hsw

theorem hasDash3_append_last (a b : List Char) (ha : hasDash3 a = false)
    (hb : hasDash3 b = false) (hl : ∀ c, a.getLast? = some c → c ≠ '-') :
    hasDash3 (a ++ b) = false := by
  induction a with
  | nil => simpa using hb
  | cons c a' ih =>
    obtain ⟨hsw, ha'⟩ := hasDash3_parts c a' ha
    rw [show (c :: a') ++ b = c :: (a' ++ b) from rfl]
    have hl' : ∀ x, a'.getLast? = some x → x ≠ '-' := by
      intro x hx
      refine hl x ?_
      cases a' with
      | nil => simp at hx
      | cons d a'' => rw [List.getLast?_cons_cons]; exact hx
    refine hasDash3_cons_false _ _ ?_ (ih ha' hl')
    cases hs : startsWithCh ['-', '-', '-'] (c :: (a' ++ b)) with
    | false => rfl
    | true =>
      exfalso
      obtain ⟨y, hy⟩ := (startsWith_dash3_iff _).mp hs
      rcases a' with _ | ⟨x1, _ | ⟨x2, a''⟩⟩
      · have h2 : c :: b = '-' :: '-' :: '-' :: y := hy
        rw [List.cons.injEq] at h2
        exact hl c (by rfl) h2.1
      · have h2 : c :: x1 :: b = '-' :: '-' :: '-' :: y := hy
        rw [List.cons.injEq] at h2
        obtain ⟨-, h3⟩ := h2
        rw [List.cons.injEq] at h3
        exact hl x1 (by rfl) h3.1
      · have h2 : c :: x1 :: x2 :: (a'' ++ b) = '-' :: '-' :: '-' :: y := hy
        rw [List.cons.injEq] at h2
        obtain ⟨hc, h3⟩ := h2
        rw [List.cons.injEq] at h3
        obtain ⟨hx1, h4⟩ := h3
        rw [List.cons.injEq] at h4
        obtain ⟨hx2, -⟩ := h4
        rw [hc, hx1, hx2] at hsw
        simp [startsWithCh] at hsw

theorem splitColonOnce_some_decomp : ∀ (l v : List Char), (splitColonOnce l).2 = some v →
    l = (splitColonOnce l).1 ++ ':' :: v ∧ hasChar ':' (splitColonOnce l).1 = false := by
  intro l
  induction l using splitColonOnce.induct with
  | case1 =>
    intro v h
    simp [splitColonOnce] at h
  | case2 rest =>
    intro v h
    rw [show splitColonOnce (':' :: rest) = ([], some rest) from rfl] at h ⊢
    cases h
    exact ⟨rfl, rfl⟩
  | case3 c cs hc ih =>
    intro v h
    rw [splitColonOnce.eq_3 c cs hc] at h ⊢
    obtain ⟨hl, hn⟩ := ih v h
    constructor
    · exact congrArg (List.cons c) hl
    · rw [show hasChar ':' (c :: (splitColonOnce cs).1) =
        ((c == ':') || hasChar ':' (splitColonOnce cs).1) from rfl, hn]
      simp
      exact hc

theorem splitColonOnce_append (k v : List Char) (hk : hasChar ':' k = false) :
    splitColonOnce (k ++ ':' :: v) = (k, some v) := by
  induction k with
  | nil => rfl
  | cons c k' ih =>
    rw [show hasChar ':' (c :: k') = ((c == ':') || hasChar ':' k') from rfl,
      Bool.or_eq_false_iff] at hk
    have hc : ∀ h : c = ':', False := by
      intro h
      rw [h] at hk
      simp at hk
    rw [show (c :: k') ++ ':' :: v = c :: (k' ++ ':' :: v) from rfl,
      splitColonOnce.eq_3 _ _ hc, ih hk.2]

theorem dropWhile_head_not (p : Char → Bool) : ∀ (l : List Char) (c : Char),
    (l.dropWhile p).head? = some c → p c = false := by
  intro l
  induction l with
  | nil => intro c h; simp at h
  | cons d l' ih =>
    intro c h
    by_cases hd : p d = true
    · rw [List.dropWhile_cons_of_pos hd] at h
      exact ih c h
    · rw [List.dropWhile_cons_of_neg hd] at h
      simp at h
      rw [← h]
      exact Bool.eq_false_iff.mpr hd

theorem dropWhile_eq_self_of_head (p : Char → Bool) (l : List Char)
    (h : ∀ c, l.head? = some c → p c = false) : l.dropWhile p = l := by
  cases l with
  | nil => rfl
  | cons c l' => rw [List.dropWhile_cons_of_neg (by rw [h c rfl]; simp)]

theorem dropWhile_eq_nil_of_all (p : Char → Bool) : ∀ (l : List Char),
    (∀ c ∈ l, p c = true) → l.dropWhile p = [] := by
  intro l
  induction l with
  | nil => intro h; rfl
  | cons c l' ih =>
    intro h
    rw [List.dropWhile_cons_of_pos (h c (List.mem_cons_self ..))]
    exact ih (fun d hd => h d (List.mem_cons_of_mem _ hd))

theorem exists_dropWhile_decomp (p : Char → Bool) : ∀ (l : List Char),
    ∃ u, l = u ++ l.dropWhile p ∧ ∀ c ∈ u, p c = true := by
  intro l
  induction l with
  | nil => exact ⟨[], rfl, by simp⟩
  | cons c l' ih =>
    by_cases hc : p c = true
    · obtain ⟨u, hu, hall⟩ := ih
      refine ⟨c :: u, ?_, ?_⟩
      · rw [List.dropWhile_cons_of_pos hc]
        rw [show (c :: u) ++ l'.dropWhile p = c :: (u ++ l'.dropWhile p) from rfl, ← hu]
      · intro d hd
        rcases List.mem_cons.mp hd with h | h
        · rw [h]; exact hc
        · exact hall d h
    · refine ⟨[], ?_, by simp⟩
      rw [List.dropWhile_cons_of_neg hc]
      rfl

theorem stripCh_append_eq (l : List Char) :
    ∃ w, l.dropWhile pyIsSpace = stripCh l ++ w ∧ ∀ c ∈ w, pyIsSpace c = true := by
  obtain ⟨u', hu', hua'⟩ := exists_dropWhile_decomp pyIsSpace (l.dropWhile pyIsSpace).reverse
  refine ⟨u'.reverse, ?_, ?_⟩
  · have h := congrArg List.reverse hu'
    rw [List.reverse_reverse, List.reverse_append] at h
    exact h
  · intro c hc
    exact hua' c (List.mem_reverse.mp hc)

theorem stripCh_decomp (l : List Char) :
    ∃ u w, l = u ++ stripCh l ++ w ∧ (∀ c ∈ u, pyIsSpace c = true) ∧
      (∀ c ∈ w, pyIsSpace c = true) := by
  obtain ⟨u, hu, hua⟩ := exists_dropWhile_decomp pyIsSpace l
  obtain ⟨w, hw, hwa⟩ := stripCh_append_eq l
  refine ⟨u, w, ?_, hua, hwa⟩
  conv_lhs => rw [hu, hw]
  rw [List.append_assoc]

theorem stripCh_within (l : List Char) : stripCh l <:+: l := by
  obtain ⟨u, w, h, -, -⟩ := stripCh_decomp l
  exact ⟨u, w, h.symm⟩

theorem stripCh_head_not (l : List Char) (c : Char) (h : (stripCh l).head? = some c) :
    pyIsSpace c = false := by
  obtain ⟨w, hw, -⟩ := stripCh_append_eq l
  apply dropWhile_head_not pyIsSpace l c
  rw [hw, List.head?_append, h]
  rfl

theorem stripCh_getLast_not (l : List Char) (c : Char) (h : (stripCh l).getLast? = some c) :
    pyIsSpace c = false := by
  have h2 : ((l.dropWhile pyIsSpace).reverse.dropWhile pyIsSpace).head? = some c := by
    rw [show stripCh l = ((l.dropWhile pyIsSpace).reverse.dropWhile pyIsSpace).reverse
      from rfl] at h
    rw [List.getLast?_reverse] at h
    exact h
  exact dropWhile_head_not _ _ _ h2

theorem stripCh_eq_self (l : List Char)
    (h1 : ∀ c, l.head? = some c → pyIsSpace c = false)
    (h2 : ∀ c, l.getLast? = some c → pyIsSpace c = false) : stripCh l = l := by
  unfold stripCh
  rw [dropWhile_eq_self_of_head _ _ h1]
  rw [dropWhile_eq_self_of_head _ _ ?hrev]
  · exact List.reverse_reverse l
  · intro c hc
    rw [List.head?_reverse] at hc
    exact h2 c hc

theorem stripCh_idem (l : List Char) : stripCh (stripCh l) = stripCh l :=
  stripCh_eq_self _ (stripCh_head_not l) (stripCh_getLast_not l)

theorem stripCh_space_lead (u x : List Char) (hu : ∀ c ∈ u, pyIsSpace c = true) :
    stripCh (u ++ x) = stripCh x := by
  unfold stripCh
  rw [List.dropWhile_append, dropWhile_eq_nil_of_all _ u hu]
  simp

theorem stripCh_space_trail (x w : List Char) (hw : ∀ c ∈ w, pyIsSpace c = true) :
    stripCh (x ++ w) = stripCh x := by
  by_cases hx : x.dropWhile pyIsSpace = []
  · unfold stripCh
    rw [List.dropWhile_append, hx]
    simp [dropWhile_eq_nil_of_all _ w hw]
  · unfold stripCh
    rw [List.dropWhile_append, if_neg (by simpa using hx)]
    rw [List.reverse_append, List.dropWhile_append,
      dropWhile_eq_nil_of_all _ w.reverse (fun c hc => hw c (List.mem_reverse.mp hc))]
    simp

theorem stripCh_wrap (u m w : List Char) (hu : ∀ c ∈ u, pyIsSpace c = true)
    (hw : ∀ c ∈ w, pyIsSpace c = true)
    (h1 : ∀ c, m.head? = some c → pyIsSpace c = false)
    (h2 : ∀ c, m.getLast? = some c → pyIsSpace c = false) :
    stripCh (u ++ m ++ w) = m := by
  rw [List.append_assoc, stripCh_space_lead u _ hu, stripCh_space_trail m w hw,
    stripCh_eq_self m h1 h2]

theorem nlFreeB_cons_parts (c : Char) (l : List Char) (h : nlFreeB (c :: l) = true) :
    (c ≠ '\n' ∧ c ≠ '\r') ∧ nlFreeB l = true := by
  rw [nlFreeB_iff] at h
  exact ⟨h c (List.mem_cons_self ..),
    (nlFreeB_iff l).mpr (fun d hd => h d (List.mem_cons_of_mem _ hd))⟩

theorem splitlinesCh_append_nl : ∀ (x y : List Char), nlFreeB x = true →
    splitlinesCh (x ++ '\n' :: y) = x :: splitlinesCh y := by
  intro x
  induction x with
  | nil => intro y hx; rfl
  | cons c x' ih =>
    intro y hx
    obtain ⟨⟨hc1, hc2⟩, hx'⟩ := nlFreeB_cons_parts c x' hx
    rw [show (c :: x') ++ '\n' :: y = c :: (x' ++ '\n' :: y) from rfl]
    rw [splitlinesCh.eq_5 c _ (fun h => hc1 h) (fun r h1 h2 => hc2 h1) (fun h => hc2 h)]
    rw [ih y hx']
    rfl

theorem splitlinesCh_singleton : ∀ (m : List Char), nlFreeB m = true → m ≠ [] →
    splitlinesCh m = [m] := by
  intro m
  induction m with
  | nil => intro hm hne; exact absurd rfl hne
  | cons c m' ih =>
    intro hm hne
    obtain ⟨⟨hc1, hc2⟩, hm'⟩ := nlFreeB_cons_parts c m' hm
    rw [splitlinesCh.eq_5 c _ (fun h => hc1 h) (fun r h1 h2 => hc2 h1) (fun h => hc2 h)]
    cases m' with
    | nil => rfl
    | cons d m'' =>
      rw [ih hm' (by simp)]
      rfl

theorem splitlinesCh_parts_nlFree : ∀ (l : List Char), ∀ p ∈ splitlinesCh l,
    nlFreeB p = true := by
  intro l
  induction l using splitlinesCh.induct with
  | case1 => intro p hp; simp [splitlinesCh] at hp
  | case2 rest ih =>
    intro p hp
    rw [splitlinesCh.eq_2] at hp
    rcases List.mem_cons.mp hp with h | h
    · rw [h]; rfl
    · exact ih p h
  | case3 rest ih =>
    intro p hp
    rw [splitlinesCh.eq_3] at hp
    rcases List.mem_cons.mp hp with h | h
    · rw [h]; rfl
    · exact ih p h
  | case4 rest h1 ih =>
    intro p hp
    rw [splitlinesCh.eq_4 _ h1] at hp
    rcases List.mem_cons.mp hp with h | h
    · rw [h]; rfl
    · exact ih p h
  | case5 c rest h1 h2 h3 ih =>
    intro p hp
    rw [splitlinesCh.eq_5 _ _ h1 h2 h3] at hp
    cases hsp : splitlinesCh rest with
    | nil =>
      rw [hsp] at hp
      simp [consHead] at hp
      rw [hp, nlFreeB_iff]
      intro d hd
      simp at hd
      rw [hd]
      exact ⟨fun h => h1 h, fun h => h3 h⟩
    | cons p0 ps =>
      rw [hsp] at hp
      rcases List.mem_cons.mp hp with h | h
      · rw [h, nlFreeB_iff]
        intro d hd
        rcases List.mem_cons.mp hd with h' | h'
        · rw [h']
          exact ⟨fun h => h1 h, fun h => h3 h⟩
        · exact (nlFreeB_iff p0).mp (ih p0 (by rw [hsp]; exact List.mem_cons_self ..)) d h'
      · exact ih p (by rw [hsp]; exact List.mem_cons_of_mem _ h)

theorem splitlinesCh_structure : ∀ (l : List Char),
    (∀ p ∈ splitlinesCh l, p <:+: l) ∧
      (∀ p0 ps, splitlinesCh l = p0 :: ps → ∃ w, l = p0 ++ w) := by
  intro l
  induction l using splitlinesCh.induct with
  | case1 =>
    refine ⟨fun p hp => ?_, fun p0 ps h => ?_⟩
    · simp [splitlinesCh] at hp
    · simp [splitlinesCh] at h
  | case2 rest ih =>
    refine ⟨fun p hp => ?_, fun p0 ps h => ?_⟩
    · rw [splitlinesCh.eq_2] at hp
      rcases List.mem_cons.mp hp with h | h
      · exact ⟨[], '\n' :: rest, by rw [h]; rfl⟩
      · obtain ⟨u, w, huw⟩ := ih.1 p h
        exact ⟨'\n' :: u, w, by rw [← huw]; rfl⟩
    · rw [splitlinesCh.eq_2] at h
      rw [List.cons.injEq] at h
      exact ⟨'\n' :: rest, by rw [← h.1]; rfl⟩
  | case3 rest ih =>
    refine ⟨fun p hp => ?_, fun p0 ps h => ?_⟩
    · rw [splitlinesCh.eq_3] at hp
      rcases List.mem_cons.mp hp with h | h
      · exact ⟨[], '\r' :: '\n' :: rest, by rw [h]; rfl⟩
      · obtain ⟨u, w, huw⟩ := ih.1 p h
        exact ⟨'\r' :: '\n' :: u, w, by rw [← huw]; rfl⟩
    · rw [splitlinesCh.eq_3] at h
      rw [List.cons.injEq] at h
      exact ⟨'\r' :: '\n' :: rest, by rw [← h.1]; rfl⟩
  | case4 rest h1 ih =>
    refine ⟨fun p hp => ?_, fun p0 ps h => ?_⟩
    · rw [splitlinesCh.eq_4 _ h1] at hp
      rcases List.mem_cons.mp hp with h | h
      · exact ⟨[], '\r' :: rest, by rw [h]; rfl⟩
      · obtain ⟨u, w, huw⟩ := ih.1 p h
        exact ⟨'\r' :: u, w, by rw [← huw]; rfl⟩
    · rw [splitlinesCh.eq_4 _ h1] at h
      rw [List.cons.injEq] at h
      exact ⟨'\r' :: rest, by rw [← h.1]; rfl⟩
  | case5 c rest h1 h2 h3 ih =>
    cases hsp : splitlinesCh rest with
    | nil =>
      refine ⟨fun p hp => ?_, fun p0 ps h => ?_⟩
      · rw [splitlinesCh.eq_5 _ _ h1 h2 h3, hsp] at hp
        simp [consHead] at hp
        exact ⟨[], rest, by rw [hp]; rfl⟩
      · rw [splitlinesCh.eq_5 _ _ h1 h2 h3, hsp] at h
        simp [consHead] at h
        exact ⟨rest, by rw [← h.1]; rfl⟩
    | cons q0 qs =>
      obtain ⟨w0, hw0⟩ := ih.2 q0 qs hsp
      refine ⟨fun p hp => ?_, fun p0 ps h => ?_⟩
      · rw [splitlinesCh.eq_5 _ _ h1 h2 h3, hsp] at hp
        rcases List.mem_cons.mp hp with h | h
        · exact ⟨[], w0, by rw [h, hw0]; rfl⟩
        · obtain ⟨u, w, huw⟩ := ih.1 p (by rw [hsp]; exact List.mem_cons_of_mem _ h)
          exact ⟨c :: u, w, by rw [← huw]; rfl⟩
      · rw [splitlinesCh.eq_5 _ _ h1 h2 h3, hsp] at h
        rw [show consHead c (q0 :: qs) = (c :: q0) :: qs from rfl, List.cons.injEq] at h
        exact ⟨w0, by rw [← h.1, hw0]; rfl⟩

theorem char_toNat_inj {a b : Char} (h : a.toNat = b.toNat) : a = b := by
  apply Char.ext
  apply UInt32.eq_of_val_eq
  apply Fin.ext
  exact h

theorem pyIsSpace_false_of_ge {c : Char} (h : 33 ≤ c.toNat) : pyIsSpace c = false := by
  have hne : ∀ d : Char, d.toNat ≤ 32 → (c == d) = false := by
    intro d hd
    rw [beq_eq_false_iff_ne]
    intro he
    rw [he] at h
    omega
  rw [show pyIsSpace c = (c == ' ' || c == '\t' || c == '\n' || c == '\r' ||
    c == '\x0b' || c == '\x0c') from rfl]
  rw [hne ' ' (by decide), hne '\t' (by decide), hne '\n' (by decide),
    hne '\r' (by decide), hne '\x0b' (by decide), hne '\x0c' (by decide)]
  rfl

theorem pyIsSpace_pyUpper (c : Char) : pyIsSpace (pyUpper c) = pyIsSpace c := by
  by_cases hc : 97 ≤ c.toNat ∧ c.toNat ≤ 122
  · have h1 : (pyUpper c).toNat = c.toNat - 32 := pyUpper_toNat_large hc
    rw [pyIsSpace_false_of_ge (by omega), pyIsSpace_false_of_ge (by omega)]
  · have h2 : pyUpper c = c := by
      unfold pyUpper
      rw [if_neg hc]
    rw [h2]

theorem upperCh_append (a b : List Char) : upperCh (a ++ b) = upperCh a ++ upperCh b := by
  simp [upperCh]

theorem upperCh_idem (l : List Char) : upperCh (upperCh l) = upperCh l := by
  induction l with
  | nil => rfl
  | cons c cs ih =>
    rw [show upperCh (c :: cs) = pyUpper c :: upperCh cs from rfl,
      show upperCh (pyUpper c :: upperCh cs) = pyUpper (pyUpper c) :: upperCh (upperCh cs)
        from rfl, pyUpper_idem, ih]

theorem hasChar_upperCh_low {a : Char} (ha : a.toNat < 65) (l : List Char)
    (h : hasChar a l = false) : hasChar a (upperCh l) = false := by
  rw [hasChar_eq_false_iff] at h ⊢
  intro hmem
  obtain ⟨d, hd, hda⟩ := List.mem_map.mp hmem
  rw [← pyUpper_eq_low ha hda] at h
  exact h hd

theorem nlFreeB_upperCh (l : List Char) (h : nlFreeB l = true) :
    nlFreeB (upperCh l) = true := by
  rw [nlFreeB_iff] at h ⊢
  intro c hc
  obtain ⟨d, hd, hdc⟩ := List.mem_map.mp hc
  constructor
  · intro he
    rw [he] at hdc
    rw [pyUpper_eq_low (by decide) hdc] at hd
    exact (h _ hd).1 rfl
  · intro he
    rw [he] at hdc
    rw [pyUpper_eq_low (by decide) hdc] at hd
    exact (h _ hd).2 rfl

theorem hasDash3_upperCh (l : List Char) (h : hasDash3 l = false) :
    hasDash3 (upperCh l) = false := by
  cases hd : hasDash3 (upperCh l) with
  | false => rfl
  | true =>
    exfalso
    obtain ⟨x, y, hxy⟩ := (hasDash3_iff _).mp hd
    rw [show upperCh l = List.map pyUpper l from rfl] at hxy
    obtain ⟨l1, l2, hl12, hm1, hm2⟩ := List.map_eq_append_iff.mp hxy
    rw [show '-' :: '-' :: '-' :: y = ['-', '-', '-'] ++ y from rfl] at hm2
    obtain ⟨l3, l4, hl34, hm3, hm4⟩ := List.map_eq_append_iff.mp hm2
    rcases l3 with _ | ⟨d1, _ | ⟨d2, _ | ⟨d3, l3'⟩⟩⟩ <;> simp at hm3
    obtain ⟨he1, he2, he3, he4⟩ := hm3
    rw [pyUpper_eq_low (by decide) he1] at hl34
    rw [pyUpper_eq_low (by decide) he2] at hl34
    rw [pyUpper_eq_low (by decide) he3] at hl34
    rw [he4] at hl34
    have : hasDash3 l = true := by
      rw [hasDash3_iff]
      exact ⟨l1, l4, by rw [hl12, hl34]; rfl⟩
    rw [this] at h
    simp at h

theorem stripCh_upperCh_fix (x : List Char) :
    stripCh (upperCh (stripCh x)) = upperCh (stripCh x) := by
  apply stripCh_eq_self
  · intro c hc
    rw [show upperCh (stripCh x) = List.map pyUpper (stripCh x) from rfl,
      List.head?_map] at hc
    obtain ⟨d, hd, hdc⟩ := Option.map_eq_some'.mp hc
    rw [← hdc, pyIsSpace_pyUpper]
    exact stripCh_head_not x d hd
  · intro c hc
    rw [show upperCh (stripCh x) = List.map pyUpper (stripCh x) from rfl,
      List.getLast?_map] at hc
    obtain ⟨d, hd, hdc⟩ := Option.map_eq_some'.mp hc
    rw [← hdc, pyIsSpace_pyUpper]
    exact stripCh_getLast_not x d hd

theorem joinBr_nil : joinBr [] = [] := by
  simp [joinBr, List.intercalate]

theorem joinBr_single (f : List Char) : joinBr [f] = f := by
  simp [joinBr, List.intercalate]

theorem joinBr_cons_cons (f g : List Char) (fs : List (List Char)) :
    joinBr (f :: g :: fs) = f ++ '<' :: 'b' :: 'r' :: '>' :: joinBr (g :: fs) := by
  simp [joinBr, List.intercalate, List.intersperse_cons_cons, List.append_assoc]

theorem joinBr_head_not (fs : List (List Char)) (h : ∀ f ∈ fs, stripCh f = f) :
    ∀ c, (joinBr fs).head? = some c → pyIsSpace c = false := by
  cases fs with
  | nil => intro c hc; rw [joinBr_nil] at hc; simp at hc
  | cons f fs' =>
    have hf : stripCh f = f := h f (List.mem_cons_self ..)
    have hfhead : ∀ c, f.head? = some c → pyIsSpace c = false := by
      intro c hc
      rw [← hf] at hc
      exact stripCh_head_not _ _ hc
    cases fs' with
    | nil =>
      intro c hc
      rw [joinBr_single] at hc
      exact hfhead c hc
    | cons g fs'' =>
      intro c hc
      rw [joinBr_cons_cons, List.head?_append] at hc
      cases hfh : f.head? with
      | some d =>
        rw [hfh] at hc
        simp at hc
        rw [← hc]
        exact hfhead d hfh
      | none =>
        rw [hfh] at hc
        simp at hc
        rw [← hc]
        rfl

theorem joinBr_getLast_not (fs : List (List Char)) (h : ∀ f ∈ fs, stripCh f = f) :
    ∀ c, (joinBr fs).getLast? = some c → pyIsSpace c = false := by
  induction fs with
  | nil => intro c hc; rw [joinBr_nil] at hc; simp at hc
  | cons f fs' ih =>
    cases fs' with
    | nil =>
      intro c hc
      rw [joinBr_single] at hc
      have hf : stripCh f = f := h f (List.mem_cons_self ..)
      rw [← hf] at hc
      exact stripCh_getLast_not _ _ hc
    | cons g fs'' =>
      intro c hc
      rw [joinBr_cons_cons, List.getLast?_append] at hc
      have hrest : ∀ f' ∈ g :: fs'', stripCh f' = f' :=
        fun f' hf' => h f' (List.mem_cons_of_mem _ hf')
      cases hj : (joinBr (g :: fs'')).getLast? with
      | some d =>
        have : ('<' :: 'b' :: 'r' :: '>' :: joinBr (g :: fs'')).getLast? = some d := by
          rw [show '<' :: 'b' :: 'r' :: '>' :: joinBr (g :: fs'') =
            ['<', 'b', 'r', '>'] ++ joinBr (g :: fs'') from rfl, List.getLast?_append, hj]
          rfl
        rw [this] at hc
        simp at hc
        rw [← hc]
        exact ih hrest d hj
      | none =>
        have hjnil : joinBr (g :: fs'') = [] := List.getLast?_eq_none_iff.mp hj
        have : ('<' :: 'b' :: 'r' :: '>' :: joinBr (g :: fs'')).getLast? = some '>' := by
          rw [hjnil]
          rfl
        rw [this] at hc
        simp at hc
        rw [← hc]
        rfl

theorem stripCh_joinBr (fs : List (List Char)) (h : ∀ f ∈ fs, stripCh f = f) :
    stripCh (joinBr fs) = joinBr fs :=
  stripCh_eq_self _ (joinBr_head_not fs h) (joinBr_getLast_not fs h)

theorem nlFreeB_joinBr (fs : List (List Char)) (h : ∀ f ∈ fs, nlFreeB f = true) :
    nlFreeB (joinBr fs) = true := by
  induction fs with
  | nil => rfl
  | cons f fs' ih =>
    cases fs' with
    | nil =>
      rw [joinBr_single]
      exact h f (List.mem_cons_self ..)
    | cons g fs'' =>
      rw [joinBr_cons_cons, nlFreeB_iff]
      intro c hc
      rcases List.mem_append.mp hc with hm | hm
      · exact (nlFreeB_iff f).mp (h f (List.mem_cons_self ..)) c hm
      · rcases List.mem_cons.mp hm with he | hm2
        · rw [he]; exact ⟨by decide, by decide⟩
        · rcases List.mem_cons.mp hm2 with he | hm3
          · rw [he]; exact ⟨by decide, by decide⟩
          · rcases List.mem_cons.mp hm3 with he | hm4
            · rw [he]; exact ⟨by decide, by decide⟩
            · rcases List.mem_cons.mp hm4 with he | hm5
              · rw [he]; exact ⟨by decide, by decide⟩
              · exact (nlFreeB_iff _).mp
                  (ih (fun f' hf' => h f' (List.mem_cons_of_mem _ hf'))) c hm5

theorem hasDash3_joinBr (fs : List (List Char)) (h : ∀ f ∈ fs, hasDash3 f = false) :
    hasDash3 (joinBr fs) = false := by
  induction fs with
  | nil => rfl
  | cons f fs' ih =>
    cases fs' with
    | nil =>
      rw [joinBr_single]
      exact h f (List.mem_cons_self ..)
    | cons g fs'' =>
      rw [joinBr_cons_cons]
      have hrest : hasDash3 (joinBr (g :: fs'')) = false :=
        ih (fun f' hf' => h f' (List.mem_cons_of_mem _ hf'))
      have hb : hasDash3 ('<' :: 'b' :: 'r' :: '>' :: joinBr (g :: fs'')) = false := by
        refine hasDash3_cons_false _ _ (sw3_false_of_head _ (by decide)) ?_
        refine hasDash3_cons_false _ _ (sw3_false_of_head _ (by decide)) ?_
        refine hasDash3_cons_false _ _ (sw3_false_of_head _ (by decide)) ?_
        exact hasDash3_cons_false _ _ (sw3_false_of_head _ (by decide)) hrest
      exact hasDash3_append_head _ _ (h f (List.mem_cons_self ..)) hb
        (fun c hc => by
          simp at hc
          rw [← hc]
          decide)

/-- The key list of an association-list dict. -/
def dictKeys (d : List (List Char × List Char)) : List (List Char) :=
  d.map (fun e => e.1)

theorem mem_dictInsert {e : List Char × List Char} {k v : List Char}
    {d : List (List Char × List Char)} (h : e ∈ dictInsert k v d) :
    e = (k, v) ∨ e ∈ d := by
  induction d with
  | nil => simp [dictInsert] at h; exact Or.inl h
  | cons e1 t ih =>
    obtain ⟨k1, v1⟩ := e1
    by_cases hk : k1 = k
    · rw [show dictInsert k v ((k1, v1) :: t) = (k, v) :: t by simp [dictInsert, hk]] at h
      rcases List.mem_cons.mp h with h1 | h1
      · exact Or.inl h1
      · exact Or.inr (List.mem_cons_of_mem _ h1)
    · rw [show dictInsert k v ((k1, v1) :: t) = (k1, v1) :: dictInsert k v t by
        simp [dictInsert, hk]] at h
      rcases List.mem_cons.mp h with h1 | h1
      · exact Or.inr (by rw [h1]; exact List.mem_cons_self ..)
      · rcases ih h1 with h2 | h2
        · exact Or.inl h2
        · exact Or.inr (List.mem_cons_of_mem _ h2)

theorem dictKeys_dictInsert (k v : List Char) (d : List (List Char × List Char)) :
    dictKeys (dictInsert k v d) =
      if k ∈ dictKeys d then dictKeys d else dictKeys d ++ [k] := by
  induction d with
  | nil => simp [dictInsert, dictKeys]
  | cons e1 t ih =>
    obtain ⟨k1, v1⟩ := e1
    by_cases hk : k1 = k
    · subst hk
      simp [dictInsert, dictKeys]
    · have hk' : ¬ k = k1 := fun h => hk h.symm
      have e1 : dictKeys (dictInsert k v ((k1, v1) :: t)) =
          k1 :: dictKeys (dictInsert k v t) := by
        simp [dictInsert, hk, dictKeys]
      rw [e1, ih, show dictKeys ((k1, v1) :: t) = k1 :: dictKeys t from rfl]
      by_cases hmem : k ∈ dictKeys t
      · rw [if_pos hmem, if_pos (List.mem_cons_of_mem _ hmem)]
      · rw [if_neg hmem, if_neg (by
          intro hm
          rcases List.mem_cons.mp hm with h | h
          · exact hk' h
          · exact hmem h)]
        rfl

theorem nodup_dictInsert (k v : List Char) (d : List (List Char × List Char))
    (h : (dictKeys d).Nodup) : (dictKeys (dictInsert k v d)).Nodup := by
  rw [dictKeys_dictInsert]
  by_cases hmem : k ∈ dictKeys d
  · rw [if_pos hmem]; exact h
  · rw [if_neg hmem]
    rw [List.nodup_append]
    exact ⟨h, List.nodup_singleton k, by simpa using hmem⟩

theorem nodup_foldl_headerLineStep : ∀ (lines : List (List Char))
    (d : List (List Char × List Char)), (dictKeys d).Nodup →
    (dictKeys (lines.foldl headerLineStep d)).Nodup := by
  intro lines
  induction lines with
  | nil => intro d h; exact h
  | cons l ls ih =>
    intro d h
    show (dictKeys (ls.foldl headerLineStep (headerLineStep d l))).Nodup
    refine ih _ ?_
    rw [headerLineStep_entry]
    cases headerEntry l with
    | none => exact h
    | some e => exact nodup_dictInsert e.1 e.2 d h

theorem dictInsert_fresh (k v : List Char) (d : List (List Char × List Char))
    (h : k ∉ dictKeys d) : dictInsert k v d = d ++ [(k, v)] := by
  induction d with
  | nil => rfl
  | cons e1 t ih =>
    obtain ⟨k1, v1⟩ := e1
    have h1 : k1 ≠ k := by
      intro he
      exact h (by rw [← he]; exact List.mem_cons_self ..)
    have h2 : k ∉ dictKeys t := fun hm => h (List.mem_cons_of_mem _ hm)
    simp [dictInsert, h1, ih h2]

theorem foldl_dictInsert_reconstruct : ∀ (h : List (List Char × List Char))
    (acc : List (List Char × List Char)), (dictKeys (acc ++ h)).Nodup →
    List.foldl (fun d kv => dictInsert kv.1 kv.2 d) acc h = acc ++ h := by
  intro h
  induction h with
  | nil => intro acc hn; simp
  | cons kv t ih =>
    intro acc hn
    obtain ⟨k, v⟩ := kv
    have hsplit : dictKeys (acc ++ (k, v) :: t) = dictKeys acc ++ (k :: dictKeys t) := by
      simp [dictKeys]
    rw [hsplit] at hn
    have hkfresh : k ∉ dictKeys acc := by
      rw [List.nodup_append] at hn
      intro hm
      exact hn.2.2 hm (List.mem_cons_self ..)
    show List.foldl (fun d kv => dictInsert kv.1 kv.2 d) (dictInsert k v acc) t = _
    rw [dictInsert_fresh k v acc hkfresh]
    rw [ih (acc ++ [(k, v)]) (by
      rw [show (acc ++ [(k, v)]) ++ t = acc ++ ((k, v) :: t) by simp]
      rw [hsplit]
      exact hn)]
    simp

theorem startsWithCh_single (a c : Char) (x : List Char) :
    startsWithCh [a] (c :: x) = (a == c) := by
  simp [startsWithCh]

theorem header_line_reparse (d : List (List Char × List Char)) (k v : List Char)
    (hk_nc : hasChar ':' k = false) (hk_strip : stripCh k = k) (hk_upper : upperCh k = k)
    (hv_strip : stripCh v = v) (hk_hash : startsWithCh ['#'] k = false) :
    headerLineStep d (k ++ ':' :: v) = dictInsert k v d := by
  have hcolon : hasChar ':' (k ++ ':' :: v) = true := by
    rw [hasChar_eq_true_iff]
    exact List.mem_append.mpr (Or.inr (List.mem_cons_self ..))
  have hstrip_line : stripCh (k ++ ':' :: v) = k ++ ':' :: v := by
    apply stripCh_eq_self
    · intro c hc
      rw [List.head?_append] at hc
      cases hkh : k.head? with
      | some e =>
        rw [hkh] at hc
        simp at hc
        rw [← hc]
        rw [← hk_strip] at hkh
        exact stripCh_head_not _ _ hkh
      | none =>
        rw [hkh] at hc
        simp at hc
        rw [← hc]
        rfl
    · intro c hc
      rw [List.getLast?_append,
        show (':' :: v : List Char) = [':'] ++ v from rfl, List.getLast?_append] at hc
      cases hvl : v.getLast? with
      | some e =>
        rw [hvl] at hc
        simp at hc
        rw [← hc]
        rw [← hv_strip] at hvl
        exact stripCh_getLast_not _ _ hvl
      | none =>
        rw [hvl] at hc
        simp at hc
        rw [← hc]
        rfl
  have hnothash : startsWithCh ['#'] (stripCh (k ++ ':' :: v)) = false := by
    rw [hstrip_line]
    cases k with
    | nil =>
      rw [show ([] : List Char) ++ ':' :: v = ':' :: v from rfl, startsWithCh_single]
      rfl
    | cons c k' =>
      rw [show (c :: k') ++ ':' :: v = c :: (k' ++ ':' :: v) from rfl, startsWithCh_single]
      rw [startsWithCh_single] at hk_hash
      exact hk_hash
  unfold headerLineStep
  rw [if_pos (by rw [hcolon, hnothash]; rfl)]
  rw [splitColonOnce_append k v hk_nc]
  show dictInsert (upperCh (stripCh k)) (stripCh v) d = dictInsert k v d
  rw [hk_strip, hk_upper, hv_strip]

theorem serialized_header_splitlines : ∀ (h : List (List Char × List Char)),
    (∀ e ∈ h, nlFreeB e.1 = true ∧ nlFreeB e.2 = true) →
    splitlinesCh ((h.map headerLineS).flatten) =
      h.map (fun kv => kv.1 ++ ':' :: kv.2) := by
  intro h
  induction h with
  | nil => intro _; rfl
  | cons kv t ih =>
    intro hall
    obtain ⟨k, v⟩ := kv
    have hnl := hall (k, v) (List.mem_cons_self ..)
    rw [List.map_cons, List.flatten_cons]
    have hassoc : headerLineS (k, v) ++ (t.map headerLineS).flatten =
        (k ++ ':' :: v) ++ '\n' :: (t.map headerLineS).flatten := by
      simp [headerLineS]
    rw [hassoc, splitlinesCh_append_nl _ _ ?hnlline,
      ih (fun e he => hall e (List.mem_cons_of_mem _ he))]
    · rfl
    case hnlline =>
      rw [nlFreeB_iff]
      intro c hc
      rcases List.mem_append.mp hc with hm | hm
      · exact (nlFreeB_iff _).mp hnl.1 c hm
      · rcases List.mem_cons.mp hm with he | hm2
        · rw [he]; exact ⟨by decide, by decide⟩
        · exact (nlFreeB_iff _).mp hnl.2 c hm2

theorem foldl_header_serialized : ∀ (hs : List (List Char × List Char))
    (acc : List (List Char × List Char)),
    (∀ e ∈ hs, hasChar ':' e.1 = false ∧ stripCh e.1 = e.1 ∧ upperCh e.1 = e.1 ∧
      stripCh e.2 = e.2 ∧ startsWithCh ['#'] e.1 = false) →
    List.foldl headerLineStep acc (hs.map (fun kv => kv.1 ++ ':' :: kv.2)) =
      List.foldl (fun d kv => dictInsert kv.1 kv.2 d) acc hs := by
  intro hs
  induction hs with
  | nil => intro acc _; rfl
  | cons kv t ih =>
    intro acc hall
    obtain ⟨k, v⟩ := kv
    obtain ⟨h1, h2, h3, h4, h5⟩ := hall (k, v) (List.mem_cons_self ..)
    rw [List.map_cons, List.foldl_cons, List.foldl_cons]
    rw [header_line_reparse acc k v h1 h2 h3 h4 h5]
    exact ih _ (fun e he => hall e (List.mem_cons_of_mem _ he))

theorem reparse_header (h : List (List Char × List Char))
    (hwf : ∀ e ∈ h, hasChar ':' e.1 = false ∧ stripCh e.1 = e.1 ∧ upperCh e.1 = e.1 ∧
      stripCh e.2 = e.2 ∧ startsWithCh ['#'] e.1 = false ∧
      nlFreeB e.1 = true ∧ nlFreeB e.2 = true)
    (hnodup : (dictKeys h).Nodup) :
    parseHeaderCh ((h.map headerLineS).flatten) = h := by
  unfold parseHeaderCh
  rw [serialized_header_splitlines h
    (fun e he => ⟨(hwf e he).2.2.2.2.2.1, (hwf e he).2.2.2.2.2.2⟩)]
  rw [foldl_header_serialized h []
    (fun e he => ⟨(hwf e he).1, (hwf e he).2.1, (hwf e he).2.2.1, (hwf e he).2.2.2.1,
      (hwf e he).2.2.2.2.1⟩)]
  rw [foldl_dictInsert_reconstruct h [] (by simpa using hnodup)]
  rfl

theorem stripCh_marker_line (pre f : List Char) (hpre : ∃ c rest, pre = c :: rest)
    (hh : ∀ c, pre.head? = some c → pyIsSpace c = false)
    (hl : ∀ c, pre.getLast? = some c → pyIsSpace c = false)
    (hf : stripCh f = f) : stripCh (pre ++ f) = pre ++ f := by
  apply stripCh_eq_self
  · intro c hc
    obtain ⟨c0, rest0, hp⟩ := hpre
    rw [List.head?_append] at hc
    rw [hp] at hc
    simp at hc
    refine hh c ?_
    rw [hp, ← hc]
    rfl
  · intro c hc
    rw [List.getLast?_append] at hc
    cases hfl : f.getLast? with
    | some e =>
      rw [hfl] at hc
      simp at hc
      rw [← hc]
      rw [← hf] at hfl
      exact stripCh_getLast_not _ _ hfl
    | none =>
      rw [hfl] at hc
      simp at hc
      exact hl c hc

theorem hasDash3_line (pre f : List Char) (hpre : hasDash3 pre = false)
    (hl : ∀ c, pre.getLast? = some c → c ≠ '-') (hf : hasDash3 f = false) :
    hasDash3 (pre ++ f) = false :=
  hasDash3_append_last pre f hpre hf hl

theorem subPartS_eq (c : Card) :
    subPartS c = ['\n'] ++ (['S', 'U', 'B', 'D', 'E', 'C', 'K', ':'] ++ c.subdeck) ++ ['\n'] :=
  rfl

theorem stripCh_subPartS (c : Card) (hs : stripCh c.subdeck = c.subdeck) :
    stripCh (subPartS c) = ['S', 'U', 'B', 'D', 'E', 'C', 'K', ':'] ++ c.subdeck := by
  rw [subPartS_eq]
  apply stripCh_wrap
  · intro d hd
    simp at hd
    rw [hd]
    rfl
  · intro d hd
    simp at hd
    rw [hd]
    rfl
  · intro d hd
    simp at hd
    rw [← hd]
    rfl
  · intro d hd
    rw [List.getLast?_append] at hd
    cases hsl : c.subdeck.getLast? with
    | some e =>
      rw [hsl] at hd
      simp at hd
      rw [← hd]
      rw [← hs] at hsl
      exact stripCh_getLast_not _ _ hsl
    | none =>
      rw [hsl] at hd
      simp at hd
      rw [← hd]
      rfl

theorem stripCh_subLine (c : Card) (hs : stripCh c.subdeck = c.subdeck) :
    stripCh (['S', 'U', 'B', 'D', 'E', 'C', 'K', ':'] ++ c.subdeck) =
      ['S', 'U', 'B', 'D', 'E', 'C', 'K', ':'] ++ c.subdeck := by
  apply stripCh_marker_line _ _ ⟨'S', _, rfl⟩
  · intro d hd
    simp at hd
    rw [← hd]
    rfl
  · intro d hd
    simp at hd
    rw [← hd]
    rfl
  · exact hs

theorem isSubdeckLine_subLine (c : Card) :
    isSubdeckLine (['S', 'U', 'B', 'D', 'E', 'C', 'K', ':'] ++ c.subdeck) = true := by
  unfold isSubdeckLine
  rw [upperCh_append,
    show upperCh ['S', 'U', 'B', 'D', 'E', 'C', 'K', ':'] = ['S', 'U', 'B', 'D', 'E', 'C', 'K', ':']
      from by decide]
  exact startsWithCh_self_append _ _

theorem subdeckValue_subLine (c : Card) (hs : stripCh c.subdeck = c.subdeck) :
    subdeckValue (['S', 'U', 'B', 'D', 'E', 'C', 'K', ':'] ++ c.subdeck) = c.subdeck := by
  unfold subdeckValue
  rw [show (['S', 'U', 'B', 'D', 'E', 'C', 'K', ':'] ++ c.subdeck : List Char) =
    ['S', 'U', 'B', 'D', 'E', 'C', 'K'] ++ ':' :: c.subdeck from by simp]
  rw [splitColonOnce_append _ _ (by decide)]
  exact hs

theorem nlFreeB_subLine (c : Card) (hs : nlFreeB c.subdeck = true) :
    nlFreeB (['S', 'U', 'B', 'D', 'E', 'C', 'K', ':'] ++ c.subdeck) = true := by
  rw [nlFreeB_iff]
  intro d hd
  rcases List.mem_append.mp hd with hm | hm
  · fin_cases hm <;> exact ⟨by decide, by decide⟩
  · exact (nlFreeB_iff _).mp hs d hm

theorem processBlocks_directive (c : Card) (bs : List (List Char)) (sub0 : List Char)
    (hs : stripCh c.subdeck = c.subdeck) (hnl : nlFreeB c.subdeck = true) :
    processBlocks sub0 (subPartS c :: bs) = processBlocks c.subdeck bs := by
  have h1 : stripCh (subPartS c) = ['S', 'U', 'B', 'D', 'E', 'C', 'K', ':'] ++ c.subdeck :=
    stripCh_subPartS c hs
  have h2 : splitlinesCh (['S', 'U', 'B', 'D', 'E', 'C', 'K', ':'] ++ c.subdeck) =
      [['S', 'U', 'B', 'D', 'E', 'C', 'K', ':'] ++ c.subdeck] :=
    splitlinesCh_singleton _ (nlFreeB_subLine c hnl) (by simp)
  simp only [processBlocks, h1, h2]
  rw [if_neg (by simp)]
  rw [show ([(['S', 'U', 'B', 'D', 'E', 'C', 'K', ':'] ++ c.subdeck)]).headD ([] : List Char) =
    ['S', 'U', 'B', 'D', 'E', 'C', 'K', ':'] ++ c.subdeck from rfl]
  rw [stripCh_subLine c hs]
  rw [if_pos (isSubdeckLine_subLine c)]
  rw [subdeckValue_subLine c hs]

theorem nlFreeB_append (x y : List Char) (hx : nlFreeB x = true) (hy : nlFreeB y = true) :
    nlFreeB (x ++ y) = true := by
  rw [nlFreeB_iff]
  intro c hc
  rcases List.mem_append.mp hc with hm | hm
  · exact (nlFreeB_iff _).mp hx c hm
  · exact (nlFreeB_iff _).mp hy c hm

theorem cardPartS_eq (c : Card) :
    cardPartS c = ['\n'] ++ ((['F', 'R', 'O', 'N', 'T', ':'] ++ c.front) ++
      '\n' :: (['B', 'A', 'C', 'K', ':'] ++ c.back)) ++ ['\n'] := by
  simp [cardPartS]

theorem getLast_backLine (c : Card) (hb : stripCh c.back = c.back) :
    ∀ d, ((['B', 'A', 'C', 'K', ':'] ++ c.back).getLast? = some d) → pyIsSpace d = false := by
  intro d hd
  rw [List.getLast?_append] at hd
  cases hbl : c.back.getLast? with
  | some e =>
    rw [hbl] at hd
    simp at hd
    rw [← hd]
    rw [← hb] at hbl
    exact stripCh_getLast_not _ _ hbl
  | none =>
    rw [hbl] at hd
    simp at hd
    rw [← hd]
    rfl

theorem stripCh_cardPartS (c : Card) (_hf : stripCh c.front = c.front)
    (hb : stripCh c.back = c.back) :
    stripCh (cardPartS c) = (['F', 'R', 'O', 'N', 'T', ':'] ++ c.front) ++
      '\n' :: (['B', 'A', 'C', 'K', ':'] ++ c.back) := by
  rw [cardPartS_eq]
  apply stripCh_wrap
  · intro d hd
    simp at hd
    rw [hd]
    rfl
  · intro d hd
    simp at hd
    rw [hd]
    rfl
  · intro d hd
    rw [List.head?_append] at hd
    rw [show (['F', 'R', 'O', 'N', 'T', ':'] ++ c.front).head? = some 'F' from by
      rw [List.head?_append]; rfl] at hd
    simp at hd
    rw [← hd]
    rfl
  · intro d hd
    rw [List.getLast?_append] at hd
    rw [show ('\n' :: (['B', 'A', 'C', 'K', ':'] ++ c.back) : List Char) =
      ['\n'] ++ (['B', 'A', 'C', 'K', ':'] ++ c.back) from rfl, List.getLast?_append] at hd
    cases hbl : (['B', 'A', 'C', 'K', ':'] ++ c.back).getLast? with
    | some e =>
      rw [hbl] at hd
      simp at hd
      rw [← hd]
      exact getLast_backLine c hb e hbl
    | none =>
      exfalso
      rw [List.getLast?_append] at hbl
      cases h2 : c.back.getLast? <;> rw [h2] at hbl <;> simp at hbl

theorem splitlines_cardLines (c : Card) (hfn : nlFreeB c.front = true)
    (hbn : nlFreeB c.back = true) :
    splitlinesCh ((['F', 'R', 'O', 'N', 'T', ':'] ++ c.front) ++
        '\n' :: (['B', 'A', 'C', 'K', ':'] ++ c.back)) =
      [['F', 'R', 'O', 'N', 'T', ':'] ++ c.front, ['B', 'A', 'C', 'K', ':'] ++ c.back] := by
  rw [splitlinesCh_append_nl _ _ (nlFreeB_append _ _ (by decide) hfn)]
  rw [splitlinesCh_singleton _ (nlFreeB_append _ _ (by decide) hbn) (by simp)]

theorem stripCh_frontLine (f : List Char) (hf : stripCh f = f) :
    stripCh (['F', 'R', 'O', 'N', 'T', ':'] ++ f) = ['F', 'R', 'O', 'N', 'T', ':'] ++ f := by
  apply stripCh_marker_line _ _ ⟨'F', _, rfl⟩
  · intro d hd
    simp at hd
    rw [← hd]
    rfl
  · intro d hd
    simp at hd
    rw [← hd]
    rfl
  · exact hf

theorem stripCh_backLine (b : List Char) (hb : stripCh b = b) :
    stripCh (['B', 'A', 'C', 'K', ':'] ++ b) = ['B', 'A', 'C', 'K', ':'] ++ b := by
  apply stripCh_marker_line _ _ ⟨'B', _, rfl⟩
  · intro d hd
    simp at hd
    rw [← hd]
    rfl
  · intro d hd
    simp at hd
    rw [← hd]
    rfl
  · exact hb

theorem upperCh_frontLine (f : List Char) :
    upperCh (['F', 'R', 'O', 'N', 'T', ':'] ++ f) = ['F', 'R', 'O', 'N', 'T', ':'] ++ upperCh f := by
  rw [upperCh_append, show upperCh ['F', 'R', 'O', 'N', 'T', ':'] = ['F', 'R', 'O', 'N', 'T', ':']
    from by decide]

theorem upperCh_backLine (b : List Char) :
    upperCh (['B', 'A', 'C', 'K', ':'] ++ b) = ['B', 'A', 'C', 'K', ':'] ++ upperCh b := by
  rw [upperCh_append, show upperCh ['B', 'A', 'C', 'K', ':'] = ['B', 'A', 'C', 'K', ':']
    from by decide]

theorem cardLineStep_front (st : Option FieldTag × List (List Char) × List (List Char))
    (f : List Char) (hf : stripCh f = f) :
    cardLineStep st (['F', 'R', 'O', 'N', 'T', ':'] ++ f) =
      (some FieldTag.front, st.2.1 ++ [f], st.2.2) := by
  have h1 := stripCh_frontLine f hf
  simp only [cardLineStep, h1]
  rw [if_neg (by simp [startsWithCh])]
  rw [upperCh_frontLine]
  rw [if_pos (startsWithCh_self_append _ _)]
  rw [show (['F', 'R', 'O', 'N', 'T', ':'] ++ f).drop 6 = f from
    List.drop_left ['F', 'R', 'O', 'N', 'T', ':'] f]
  rw [hf]

theorem cardLineStep_back (st : Option FieldTag × List (List Char) × List (List Char))
    (b : List Char) (hb : stripCh b = b) :
    cardLineStep st (['B', 'A', 'C', 'K', ':'] ++ b) =
      (some FieldTag.back, st.2.1, st.2.2 ++ [b]) := by
  have h1 := stripCh_backLine b hb
  simp only [cardLineStep, h1]
  rw [if_neg (by simp [startsWithCh])]
  rw [upperCh_backLine]
  rw [if_neg (by simp [startsWithCh])]
  rw [if_pos (startsWithCh_self_append _ _)]
  rw [show (['B', 'A', 'C', 'K', ':'] ++ b).drop 5 = b from
    List.drop_left ['B', 'A', 'C', 'K', ':'] b]
  rw [hb]

theorem parseCardFields_reparse (f b : List Char) (hf : stripCh f = f) (hb : stripCh b = b) :
    parseCardFields [['F', 'R', 'O', 'N', 'T', ':'] ++ f, ['B', 'A', 'C', 'K', ':'] ++ b] =
      (some FieldTag.back, [f], [b]) := by
  show List.foldl cardLineStep (none, [], [])
    [['F', 'R', 'O', 'N', 'T', ':'] ++ f, ['B', 'A', 'C', 'K', ':'] ++ b] = _
  rw [List.foldl_cons, cardLineStep_front _ _ hf, List.foldl_cons, cardLineStep_back _ _ hb]
  rfl

theorem cardOfBlock_reparse (sub : List Char) (c : Card)
    (hf : stripCh c.front = c.front) (hb : stripCh c.back = c.back)
    (hfn : nlFreeB c.front = true) (hbn : nlFreeB c.back = true) :
    cardOfBlock sub (stripCh (cardPartS c)) =
      some (Card.mk c.front c.back sub
        (find_media_files c.front ∪ find_media_files c.back)) := by
  rw [stripCh_cardPartS c hf hb]
  simp only [cardOfBlock]
  rw [splitlines_cardLines c hfn hbn, parseCardFields_reparse c.front c.back hf hb]
  rw [if_pos ⟨by simp, by simp⟩]
  rw [joinBr_single, joinBr_single]

theorem processBlocks_cardPart (c : Card) (bs : List (List Char))
    (hf : stripCh c.front = c.front) (hb : stripCh c.back = c.back)
    (hfn : nlFreeB c.front = true) (hbn : nlFreeB c.back = true)
    (hm : c.media_files = find_media_files c.front ∪ find_media_files c.back) :
    processBlocks c.subdeck (cardPartS c :: bs) = c :: processBlocks c.subdeck bs := by
  have h1 := stripCh_cardPartS c hf hb
  have h2 := cardOfBlock_reparse c.subdeck c hf hb hfn hbn
  rw [h1] at h2
  simp only [processBlocks, h1]
  rw [if_neg (by simp)]
  rw [splitlines_cardLines c hfn hbn]
  rw [show ([['F', 'R', 'O', 'N', 'T', ':'] ++ c.front,
    ['B', 'A', 'C', 'K', ':'] ++ c.back]).headD ([] : List Char) =
    ['F', 'R', 'O', 'N', 'T', ':'] ++ c.front from rfl]
  rw [stripCh_frontLine _ hf]
  rw [if_neg (by
    unfold isSubdeckLine
    rw [upperCh_frontLine]
    simp [startsWithCh])]
  rw [h2]
  obtain ⟨cf, cb, cs, cm⟩ := c
  simp only at hm ⊢
  rw [hm]

theorem hasDash3_subLine (c : Card) (hd : hasDash3 c.subdeck = false) :
    hasDash3 (['S', 'U', 'B', 'D', 'E', 'C', 'K', ':'] ++ c.subdeck) = false := by
  refine hasDash3_append_last _ _ (by decide) hd ?_
  intro x hx
  simp at hx
  rw [← hx]
  decide

theorem hasDash3_subPartS_pad (c : Card) (hd : hasDash3 c.subdeck = false) :
    hasDash3 (subPartS c ++ ['-', '-']) = false := by
  have hb : hasDash3 ((['S', 'U', 'B', 'D', 'E', 'C', 'K', ':'] ++ c.subdeck) ++
      ['\n', '-', '-']) = false := by
    refine hasDash3_append_head _ _ (hasDash3_subLine c hd) (by decide) ?_
    intro x hx
    simp at hx
    rw [← hx]
    decide
  have hshape : subPartS c ++ ['-', '-'] =
      ['\n'] ++ ((['S', 'U', 'B', 'D', 'E', 'C', 'K', ':'] ++ c.subdeck) ++ ['\n', '-', '-']) := by
    simp [subPartS]
  rw [hshape]
  refine hasDash3_append_head _ _ (by decide) hb ?_
  intro x hx
  rw [show (((['S', 'U', 'B', 'D', 'E', 'C', 'K', ':'] ++ c.subdeck) ++
    ['\n', '-', '-'])).head? = some 'S' from rfl] at hx
  simp at hx
  rw [← hx]
  decide

theorem hasDash3_backTail (c : Card) (hbd : hasDash3 c.back = false) (pad : List Char)
    (hpad : hasDash3 pad = false) (hpadh : ∀ x, pad.head? = some x → x ≠ '-') :
    hasDash3 ((['B', 'A', 'C', 'K', ':'] ++ c.back) ++ pad) = false := by
  refine hasDash3_append_head _ _ ?_ hpad hpadh
  refine hasDash3_append_last _ _ (by decide) hbd ?_
  intro x hx
  simp at hx
  rw [← hx]
  decide

theorem hasDash3_cardPartS_gen (c : Card) (hfd : hasDash3 c.front = false)
    (hbd : hasDash3 c.back = false) (pad : List Char)
    (hpad : hasDash3 pad = false) :
    hasDash3 (cardPartS c ++ pad) = false := by
  have hshape : cardPartS c ++ pad =
      ['\n'] ++ ((['F', 'R', 'O', 'N', 'T', ':'] ++ c.front) ++
        ('\n' :: ((['B', 'A', 'C', 'K', ':'] ++ c.back) ++ (['\n'] ++ pad)))) := by
    simp [cardPartS]
  rw [hshape]
  have hpadnl : hasDash3 (['\n'] ++ pad) = false :=
    hasDash3_cons_false _ _ (sw3_false_of_head _ (by decide)) hpad
  have hback : hasDash3 ((['B', 'A', 'C', 'K', ':'] ++ c.back) ++ (['\n'] ++ pad)) = false :=
    hasDash3_backTail c hbd _ hpadnl (by
      intro x hx
      simp at hx
      rw [← hx]
      decide)
  have hmid : hasDash3 ('\n' :: ((['B', 'A', 'C', 'K', ':'] ++ c.back) ++ (['\n'] ++ pad))) = false :=
    hasDash3_cons_false _ _ (sw3_false_of_head _ (by decide)) hback
  have hfront : hasDash3 ((['F', 'R', 'O', 'N', 'T', ':'] ++ c.front) ++
      ('\n' :: ((['B', 'A', 'C', 'K', ':'] ++ c.back) ++ (['\n'] ++ pad)))) = false := by
    refine hasDash3_append_head _ _ ?_ hmid ?_
    · refine hasDash3_append_last _ _ (by decide) hfd ?_
      intro x hx
      simp at hx
      rw [← hx]
      decide
    · intro x hx
      simp at hx
      rw [← hx]
      decide
  refine hasDash3_append_head _ _ (by decide) hfront ?_
  intro x hx
  rw [show ((['F', 'R', 'O', 'N', 'T', ':'] ++ c.front) ++
    ('\n' :: ((['B', 'A', 'C', 'K', ':'] ++ c.back) ++ (['\n'] ++ pad)))).head? = some 'F'
    from rfl] at hx
  simp at hx
  rw [← hx]
  decide

theorem reparse_cards : ∀ (cs : List Card) (c : Card) (sub0 : List Char),
    WFcard c → (∀ c' ∈ cs, WFcard c') →
    processBlocks sub0 (splitDashAll (subPartS c ++ '-' :: '-' :: '-' ::
      (cardPartS c ++ (cs.map cardSerS).flatten))) = c :: cs := by
  intro cs
  induction cs with
  | nil =>
    intro c sub0 hwc _
    obtain ⟨hf, hb, hs, hfn, hbn, hsn, hfd, hbd, hsd, hm⟩ := hwc
    rw [splitDashAll_append _ _ (hasDash3_subPartS_pad c hsd)]
    rw [show cardPartS c ++ (([] : List Card).map cardSerS).flatten = cardPartS c ++ [] by rfl,
      List.append_nil]
    rw [splitDashAll_no_dash3 _ (by
      have := hasDash3_cardPartS_gen c hfd hbd [] (by decide)
      rwa [List.append_nil] at this)]
    rw [processBlocks_directive c _ sub0 hs hsn]
    rw [processBlocks_cardPart c _ hf hb hfn hbn hm]
    rfl
  | cons c2 cs' ih =>
    intro c sub0 hwc hall
    obtain ⟨hf, hb, hs, hfn, hbn, hsn, hfd, hbd, hsd, hm⟩ := hwc
    have hw2 := hall c2 (List.mem_cons_self ..)
    rw [splitDashAll_append _ _ (hasDash3_subPartS_pad c hsd)]
    have hshape : cardPartS c ++ ((c2 :: cs').map cardSerS).flatten =
        cardPartS c ++ '-' :: '-' :: '-' :: (subPartS c2 ++ '-' :: '-' :: '-' ::
          (cardPartS c2 ++ (cs'.map cardSerS).flatten)) := by
      simp [cardSerS, List.append_assoc]
    rw [hshape]
    rw [splitDashAll_append _ _ (hasDash3_cardPartS_gen c hfd hbd ['-', '-'] (by decide))]
    rw [processBlocks_directive c _ sub0 hs hsn]
    rw [processBlocks_cardPart c _ hf hb hfn hbn hm]
    rw [ih c2 c.subdeck hw2 (fun c' hc' => hall c' (List.mem_cons_of_mem _ hc'))]

theorem headerLineS_dashfree (e : List Char × List Char) (hk : hasDash3 e.1 = false)
    (hv : hasDash3 e.2 = false) : hasDash3 (headerLineS e) = false := by
  have hb2 : hasDash3 (e.2 ++ ['\n']) = false := by
    refine hasDash3_append_head _ _ hv (by decide) ?_
    intro x hx
    simp at hx
    rw [← hx]
    decide
  have hb : hasDash3 (':' :: (e.2 ++ ['\n'])) = false :=
    hasDash3_cons_false _ _ (sw3_false_of_head _ (by decide)) hb2
  have hshape : headerLineS e = e.1 ++ (':' :: (e.2 ++ ['\n'])) := by
    simp [headerLineS]
  rw [hshape]
  refine hasDash3_append_head _ _ hk hb ?_
  intro x hx
  simp at hx
  rw [← hx]
  decide

theorem headerLineS_getLast (e : List Char × List Char) :
    ∀ x, (headerLineS e).getLast? = some x → x = '\n' := by
  intro x hx
  have hshape : headerLineS e = e.1 ++ (':' :: (e.2 ++ ['\n'])) := by
    simp [headerLineS]
  rw [hshape, List.getLast?_append,
    show (':' :: (e.2 ++ ['\n']) : List Char) = [':'] ++ (e.2 ++ ['\n']) from rfl,
    List.getLast?_append, List.getLast?_append] at hx
  simp at hx
  exact hx.symm

theorem headerFlat_props (h : List (List Char × List Char))
    (hWF : ∀ e ∈ h, hasDash3 e.1 = false ∧ hasDash3 e.2 = false) :
    hasDash3 ((h.map headerLineS).flatten) = false ∧
      (∀ x, ((h.map headerLineS).flatten).getLast? = some x → x = '\n') := by
  induction h with
  | nil => exact ⟨rfl, by intro x hx; simp at hx⟩
  | cons e t ih =>
    have he := hWF e (List.mem_cons_self ..)
    have iht := ih (fun e' he' => hWF e' (List.mem_cons_of_mem _ he'))
    rw [List.map_cons, List.flatten_cons]
    constructor
    · refine hasDash3_append_last _ _ (headerLineS_dashfree e he.1 he.2) iht.1 ?_
      intro x hx
      rw [headerLineS_getLast e x hx]
      decide
    · intro x hx
      rw [List.getLast?_append] at hx
      cases hrest : ((t.map headerLineS).flatten).getLast? with
      | some y =>
        rw [hrest] at hx
        simp at hx
        rw [← hx]
        exact iht.2 y hrest
      | none =>
        rw [hrest] at hx
        simp at hx
        exact headerLineS_getLast e x hx

theorem headerFlat_pad (h : List (List Char × List Char))
    (hWF : ∀ e ∈ h, hasDash3 e.1 = false ∧ hasDash3 e.2 = false) :
    hasDash3 ((h.map headerLineS).flatten ++ ['-', '-']) = false := by
  refine hasDash3_append_last _ _ (headerFlat_props h hWF).1 (by decide) ?_
  intro x hx
  rw [(headerFlat_props h hWF).2 x hx]
  decide

theorem reparse_doc (h : List (List Char × List Char)) (cs : List Card)
    (hWFh : ∀ e ∈ h, WFentry e) (hnodup : (dictKeys h).Nodup)
    (hWFc : ∀ c ∈ cs, WFcard c) :
    parseCh (serializeDoc h cs) = (h, cs) := by
  have hdash : ∀ e ∈ h, hasDash3 e.1 = false ∧ hasDash3 e.2 = false :=
    fun e he => ⟨(hWFh e he).2.2.2.2.2.2.2.1, (hWFh e he).2.2.2.2.2.2.2.2⟩
  have hwf7 : ∀ e ∈ h, hasChar ':' e.1 = false ∧ stripCh e.1 = e.1 ∧ upperCh e.1 = e.1 ∧
      stripCh e.2 = e.2 ∧ startsWithCh ['#'] e.1 = false ∧
      nlFreeB e.1 = true ∧ nlFreeB e.2 = true :=
    fun e he => ⟨(hWFh e he).1, (hWFh e he).2.1, (hWFh e he).2.2.1, (hWFh e he).2.2.2.1,
      (hWFh e he).2.2.2.2.1, (hWFh e he).2.2.2.2.2.1, (hWFh e he).2.2.2.2.2.2.1⟩
  cases cs with
  | nil =>
    show parseCh ((h.map headerLineS).flatten ++ (([] : List Card).map cardSerS).flatten) = _
    rw [show ((([] : List Card).map cardSerS).flatten : List Char) = [] from rfl,
      List.append_nil]
    simp only [parseCh]
    rw [splitDashOnce_of_no_dash3 _ (headerFlat_props h hdash).1]
    rw [reparse_header h hwf7 hnodup]
    rfl
  | cons c cs' =>
    show parseCh ((h.map headerLineS).flatten ++ ((c :: cs').map cardSerS).flatten) = _
    have hshape : (h.map headerLineS).flatten ++ ((c :: cs').map cardSerS).flatten =
        (h.map headerLineS).flatten ++ '-' :: '-' :: '-' ::
          (subPartS c ++ '-' :: '-' :: '-' :: (cardPartS c ++ (cs'.map cardSerS).flatten)) := by
      simp [cardSerS, List.append_assoc]
    rw [hshape]
    simp only [parseCh]
    rw [splitDashOnce_append _ _ (headerFlat_pad h hdash)]
    show (parseHeaderCh ((h.map headerLineS).flatten),
      processBlocks [] (splitDashAll (subPartS c ++ '-' :: '-' :: '-' ::
        (cardPartS c ++ (cs'.map cardSerS).flatten)))) = _
    rw [reparse_header h hwf7 hnodup]
    rw [reparse_cards cs' c [] (hWFc c (List.mem_cons_self ..))
      (fun c' hc' => hWFc c' (List.mem_cons_of_mem _ hc'))]

theorem splitDashOnce_none_fst : ∀ (t : List Char), (splitDashOnce t).2 = none →
    (splitDashOnce t).1 = t ∧ hasDash3 t = false := by
  intro t
  induction t using splitDashOnce.induct with
  | case1 rest =>
    intro h
    rw [splitDashOnce.eq_1] at h
    simp at h
  | case2 c cs h1 ih =>
    intro h
    rw [splitDashOnce.eq_2 c cs h1] at h ⊢
    obtain ⟨hfst, hdash⟩ := ih h
    refine ⟨by rw [hfst], ?_⟩
    exact hasDash3_cons_false c cs ((nomatch_iff_not_dash3 c cs).mp h1) hdash
  | case3 =>
    intro h
    exact ⟨rfl, rfl⟩

theorem splitDashOnce_fst_dashfree (t : List Char) :
    hasDash3 (splitDashOnce t).1 = false := by
  cases h : (splitDashOnce t).2 with
  | none =>
    rw [(splitDashOnce_none_fst t h).1]
    exact (splitDashOnce_none_fst t h).2
  | some r =>
    have hd := (splitDashOnce_some_decomp t (splitDashOnce t).1 r (by rw [← h])).2
    cases hf : hasDash3 (splitDashOnce t).1 with
    | false => rfl
    | true =>
      rw [hasDash3_mono_append ['-', '-'] hf] at hd
      simp at hd

theorem mem_of_stripCh {a : Char} {l : List Char} (h : a ∈ stripCh l) : a ∈ l := by
  obtain ⟨u, w, hd, -, -⟩ := stripCh_decomp l
  rw [hd]
  exact List.mem_append.mpr (Or.inl (List.mem_append.mpr (Or.inr h)))

theorem stripCh_head_of_head (c : Char) (l : List Char) (hc : pyIsSpace c = false) :
    ∃ r, stripCh (c :: l) = c :: r := by
  unfold stripCh
  rw [List.dropWhile_cons_of_neg (by rw [hc]; simp)]
  rw [show (c :: l).reverse = l.reverse ++ [c] from by simp]
  rw [List.dropWhile_append]
  by_cases he : (l.reverse.dropWhile pyIsSpace).isEmpty = true
  · rw [if_pos he]
    rw [List.dropWhile_cons_of_neg (by rw [hc]; simp)]
    exact ⟨[], rfl⟩
  · rw [if_neg he]
    exact ⟨(l.reverse.dropWhile pyIsSpace).reverse, by simp⟩

theorem mem_foldl_headerLineStep : ∀ (lines : List (List Char))
    (d : List (List Char × List Char)) (e : List Char × List Char),
    e ∈ List.foldl headerLineStep d lines →
    e ∈ d ∨ ∃ line ∈ lines,
      (hasChar ':' line && !(startsWithCh ['#'] (stripCh line))) = true ∧
      e = (upperCh (stripCh (splitColonOnce line).1),
        stripCh ((splitColonOnce line).2.getD [])) := by
  intro lines
  induction lines with
  | nil => intro d e h; exact Or.inl h
  | cons l ls ih =>
    intro d e h
    rcases ih (headerLineStep d l) e h with h1 | ⟨line, hline, hg, he⟩
    · unfold headerLineStep at h1
      by_cases hg : (hasChar ':' l && !(startsWithCh ['#'] (stripCh l))) = true
      · rw [if_pos hg] at h1
        rcases mem_dictInsert h1 with h2 | h2
        · exact Or.inr ⟨l, List.mem_cons_self .., hg, h2⟩
        · exact Or.inl h2
      · rw [if_neg hg] at h1
        exact Or.inl h1
    · exact Or.inr ⟨line, List.mem_cons_of_mem _ hline, hg, he⟩

theorem headerEntry_WF (line : List Char) (hnl : nlFreeB line = true)
    (hld : hasDash3 line = false)
    (hg : (hasChar ':' line && !(startsWithCh ['#'] (stripCh line))) = true) :
    WFentry (upperCh (stripCh (splitColonOnce line).1),
      stripCh ((splitColonOnce line).2.getD [])) := by
  simp only [Bool.and_eq_true, Bool.not_eq_true'] at hg
  obtain ⟨hc, hns⟩ := hg
  obtain ⟨v, hv⟩ := Option.isSome_iff_exists.mp (splitColonOnce_isSome line hc)
  obtain ⟨hline, hk0⟩ := splitColonOnce_some_decomp line v hv
  have hget : (splitColonOnce line).2.getD [] = v := by rw [hv]; rfl
  rw [hget]
  obtain ⟨k, hk⟩ : ∃ k, (splitColonOnce line).1 = k := ⟨_, rfl⟩
  rw [hk] at hline hk0 ⊢
  have hmemk : ∀ c ∈ stripCh k, c ∈ line := by
    intro c hcm
    rw [hline]
    exact List.mem_append.mpr (Or.inl (mem_of_stripCh hcm))
  have hmemv : ∀ c ∈ stripCh v, c ∈ line := by
    intro c hcm
    rw [hline]
    exact List.mem_append.mpr (Or.inr (List.mem_cons_of_mem _ (mem_of_stripCh hcm)))
  have hk_within : k <:+: line := ⟨[], ':' :: v, by rw [hline]; rfl⟩
  have hv_within : v <:+: line := ⟨k ++ [':'], [], by rw [hline]; simp⟩
  refine ⟨?_, stripCh_upperCh_fix _, upperCh_idem _, stripCh_idem _, ?_, ?_, ?_, ?_, ?_⟩
  · apply hasChar_upperCh_low (by decide)
    rw [hasChar_eq_false_iff]
    intro hm
    exact (hasChar_eq_false_iff ':' _).mp hk0 (mem_of_stripCh hm)
  · cases hu : upperCh (stripCh k) with
    | nil => rfl
    | cons c cs =>
      by_cases hch : c = '#'
      · exfalso
        subst hch
        obtain ⟨d, ds, hds⟩ : ∃ d ds, stripCh k = d :: ds := by
          cases hsk : stripCh k with
          | nil => rw [hsk] at hu; simp [upperCh] at hu
          | cons d ds => exact ⟨d, ds, rfl⟩
        rw [hds] at hu
        have hdc : pyUpper d = '#' := (List.cons.injEq _ _ _ _ ▸ hu).1
        have hd35 : d = '#' := pyUpper_eq_low (by decide) hdc
        obtain ⟨u, w, hdec, hua, -⟩ := stripCh_decomp k
        have hline2 : line = u ++ (stripCh k ++ (w ++ ':' :: v)) := by
          rw [hline]
          conv_lhs => rw [hdec]
          simp
        have hsl : stripCh line = stripCh (stripCh k ++ (w ++ ':' :: v)) := by
          rw [hline2, stripCh_space_lead u _ hua]
        rw [hds, hd35] at hsl
        obtain ⟨r, hr⟩ := stripCh_head_of_head '#' (ds ++ (w ++ ':' :: v)) (by decide)
        rw [show ('#' :: ds) ++ (w ++ ':' :: v) = '#' :: (ds ++ (w ++ ':' :: v)) from
          rfl, hr] at hsl
        rw [hsl] at hns
        simp [startsWithCh] at hns
      · exact startsWithCh_false_head _ _ (fun he => hch he.symm)
  · apply nlFreeB_upperCh
    rw [nlFreeB_iff]
    intro c hcm
    exact (nlFreeB_iff line).mp hnl c (hmemk c hcm)
  · rw [nlFreeB_iff]
    intro c hcm
    exact (nlFreeB_iff line).mp hnl c (hmemv c hcm)
  · exact hasDash3_upperCh _ (hasDash3_within (stripCh_within _)
      (hasDash3_within hk_within hld))
  · exact hasDash3_within (stripCh_within _) (hasDash3_within hv_within hld)

theorem parseHeaderCh_WF (t : List Char) (hd : hasDash3 t = false) :
    ∀ e ∈ parseHeaderCh t, WFentry e := by
  intro e he
  unfold parseHeaderCh at he
  rcases mem_foldl_headerLineStep _ [] e he with h | ⟨line, hline, hg, hee⟩
  · simp at h
  · have hnl := splitlinesCh_parts_nlFree t line hline
    have hld : hasDash3 line = false :=
      hasDash3_within ((splitlinesCh_structure t).1 line hline) hd
    rw [hee]
    exact headerEntry_WF line hnl hld hg

theorem parse_header_WF (content : List Char) :
    ∀ e ∈ (parseCh content).1, WFentry e :=
  fun e he => parseHeaderCh_WF _ (splitDashOnce_fst_dashfree content) e he

theorem parse_header_nodup (content : List Char) :
    (dictKeys (parseCh content).1).Nodup :=
  nodup_foldl_headerLineStep _ [] List.nodup_nil

theorem within_trans {a b c : List Char} (h1 : a <:+: b) (h2 : b <:+: c) : a <:+: c := by
  obtain ⟨s, t, hst⟩ := h1
  obtain ⟨u, w, huw⟩ := h2
  exact ⟨u ++ s, t ++ w, by rw [← huw, ← hst]; simp⟩

theorem mem_of_within {a : Char} {x y : List Char} (hxy : x <:+: y) (h : a ∈ x) :
    a ∈ y := by
  obtain ⟨s, t, hst⟩ := hxy
  rw [← hst]
  simp [h]

theorem frag_within (line : List Char) (k : Nat) :
    stripCh ((stripCh line).drop k) <:+: line := by
  apply within_trans (stripCh_within _)
  apply within_trans _ (stripCh_within line)
  exact ⟨(stripCh line).take k, [], by simp⟩

theorem lineClass_marker_frag {line f : List Char} {g : FieldTag}
    (h : lineClass line = LineClass.marker g f) :
    f = stripCh ((stripCh line).drop 6) ∨ f = stripCh ((stripCh line).drop 5) := by
  by_cases h1 : (decide (stripCh line = []) || startsWithCh ['#'] (stripCh line)) = true
  · simp [lineClass, h1] at h
  · by_cases h2 : startsWithCh ['F', 'R', 'O', 'N', 'T', ':'] (upperCh (stripCh line)) = true
    · simp [lineClass, h1, h2] at h
      exact Or.inl h.2.symm
    · by_cases h3 : startsWithCh ['B', 'A', 'C', 'K', ':'] (upperCh (stripCh line)) = true
      · simp [lineClass, h1, h2, h3] at h
        exact Or.inr h.2.symm
      · simp [lineClass, h1, h2, h3] at h

theorem lineClass_content_frag {line f : List Char}
    (h : lineClass line = LineClass.content f) :
    f = stripCh ((stripCh line).drop 0) := by
  rw [List.drop_zero]
  by_cases h1 : (decide (stripCh line = []) || startsWithCh ['#'] (stripCh line)) = true
  · simp [lineClass, h1] at h
  · by_cases h2 : startsWithCh ['F', 'R', 'O', 'N', 'T', ':'] (upperCh (stripCh line)) = true
    · simp [lineClass, h1, h2] at h
    · by_cases h3 : startsWithCh ['B', 'A', 'C', 'K', ':'] (upperCh (stripCh line)) = true
      · simp [lineClass, h1, h2, h3] at h
      · simp [lineClass, h1, h2, h3] at h
        exact h.symm

theorem mem_foldl_cardLineStep : ∀ (lines : List (List Char))
    (st : Option FieldTag × List (List Char) × List (List Char)) (f : List Char),
    (f ∈ (List.foldl cardLineStep st lines).2.1 →
      f ∈ st.2.1 ∨ ∃ line ∈ lines, ∃ k, f = stripCh ((stripCh line).drop k)) ∧
    (f ∈ (List.foldl cardLineStep st lines).2.2 →
      f ∈ st.2.2 ∨ ∃ line ∈ lines, ∃ k, f = stripCh ((stripCh line).drop k)) := by
  intro lines
  induction lines with
  | nil => intro st f; exact ⟨fun h => Or.inl h, fun h => Or.inl h⟩
  | cons l ls ih =>
    intro st f
    have hfold : List.foldl cardLineStep st (l :: ls) =
        List.foldl cardLineStep (cardLineStep st l) ls := rfl
    have hmem1 : f ∈ (cardLineStep st l).2.1 →
        f ∈ st.2.1 ∨ ∃ k, f = stripCh ((stripCh l).drop k) := by
      have hstep := cardLineStep_class st l
      cases hlc : lineClass l with
      | skip =>
        rw [hlc] at hstep
        rw [hstep]
        exact fun h => Or.inl h
      | marker g frag =>
        cases g with
        | front =>
          rw [hlc] at hstep
          rw [hstep]
          intro h
          rcases List.mem_append.mp h with h2 | h2
          · exact Or.inl h2
          · have hf : f = frag := by simpa using h2
            rcases lineClass_marker_frag hlc with h3 | h3
            · exact Or.inr ⟨6, hf.trans h3⟩
            · exact Or.inr ⟨5, hf.trans h3⟩
        | back =>
          rw [hlc] at hstep
          rw [hstep]
          exact fun h => Or.inl h
      | content frag =>
        rw [hlc] at hstep
        obtain ⟨cf, fa, ba⟩ := st
        cases cf with
        | none => rw [hstep]; exact fun h => Or.inl h
        | some g =>
          cases g with
          | front =>
            rw [hstep]
            intro h
            rcases List.mem_append.mp h with h2 | h2
            · exact Or.inl h2
            · have hf : f = frag := by simpa using h2
              exact Or.inr ⟨0, hf.trans (lineClass_content_frag hlc)⟩
          | back => rw [hstep]; exact fun h => Or.inl h
    have hmem2 : f ∈ (cardLineStep st l).2.2 →
        f ∈ st.2.2 ∨ ∃ k, f = stripCh ((stripCh l).drop k) := by
      have hstep := cardLineStep_class st l
      cases hlc : lineClass l with
      | skip =>
        rw [hlc] at hstep
        rw [hstep]
        exact fun h => Or.inl h
      | marker g frag =>
        cases g with
        | back =>
          rw [hlc] at hstep
          rw [hstep]
          intro h
          rcases List.mem_append.mp h with h2 | h2
          · exact Or.inl h2
          · have hf : f = frag := by simpa using h2
            rcases lineClass_marker_frag hlc with h3 | h3
            · exact Or.inr ⟨6, hf.trans h3⟩
            · exact Or.inr ⟨5, hf.trans h3⟩
        | front =>
          rw [hlc] at hstep
          rw [hstep]
          exact fun h => Or.inl h
      | content frag =>
        rw [hlc] at hstep
        obtain ⟨cf, fa, ba⟩ := st
        cases cf with
        | none => rw [hstep]; exact fun h => Or.inl h
        | some g =>
          cases g with
          | back =>
            rw [hstep]
            intro h
            rcases List.mem_append.mp h with h2 | h2
            · exact Or.inl h2
            · have hf : f = frag := by simpa using h2
              exact Or.inr ⟨0, hf.trans (lineClass_content_frag hlc)⟩
          | front => rw [hstep]; exact fun h => Or.inl h
    constructor
    · intro h
      rw [hfold] at h
      rcases (ih (cardLineStep st l) f).1 h with h1 | ⟨line, hline, k, hk⟩
      · rcases hmem1 h1 with h2 | ⟨k, hk⟩
        · exact Or.inl h2
        · exact Or.inr ⟨l, List.mem_cons_self .., k, hk⟩
      · exact Or.inr ⟨line, List.mem_cons_of_mem _ hline, k, hk⟩
    · intro h
      rw [hfold] at h
      rcases (ih (cardLineStep st l) f).2 h with h1 | ⟨line, hline, k, hk⟩
      · rcases hmem2 h1 with h2 | ⟨k, hk⟩
        · exact Or.inl h2
        · exact Or.inr ⟨l, List.mem_cons_self .., k, hk⟩
      · exact Or.inr ⟨line, List.mem_cons_of_mem _ hline, k, hk⟩

theorem cardOfBlock_some (sub b : List Char) (c : Card) (h : cardOfBlock sub b = some c) :
    c.front = joinBr (parseCardFields (splitlinesCh b)).2.1 ∧
    c.back = joinBr (parseCardFields (splitlinesCh b)).2.2 ∧
    c.subdeck = sub := by
  by_cases hc : ((parseCardFields (splitlinesCh b)).2.1 ≠ [] ∧
      (parseCardFields (splitlinesCh b)).2.2 ≠ [])
  · simp [cardOfBlock, hc] at h
    rw [← h]
    exact ⟨rfl, rfl, rfl⟩
  · simp [cardOfBlock, hc] at h

theorem frag_props {b f : List Char} (hbd : hasDash3 b = false)
    (hf : ∃ line ∈ splitlinesCh b, ∃ k, f = stripCh ((stripCh line).drop k)) :
    stripCh f = f ∧ nlFreeB f = true ∧ hasDash3 f = false := by
  obtain ⟨line, hline, k, hk⟩ := hf
  have hlnl : nlFreeB line = true := splitlinesCh_parts_nlFree b line hline
  have hlin : line <:+: b := (splitlinesCh_structure b).1 line hline
  refine ⟨by rw [hk]; exact stripCh_idem _, ?_, ?_⟩
  · rw [nlFreeB_iff]
    intro a ha
    have : a ∈ line := by
      apply mem_of_within (frag_within line k)
      rw [← hk]
      exact ha
    exact (nlFreeB_iff line).mp hlnl a this
  · rw [hk]
    exact hasDash3_within (within_trans (frag_within line k) hlin) hbd

theorem block_card_WF {sub b : List Char} {c : Card}
    (hsub_s : stripCh sub = sub) (hsub_nl : nlFreeB sub = true)
    (hsub_d : hasDash3 sub = false) (hbd : hasDash3 b = false)
    (h : cardOfBlock sub b = some c) : WFcard c := by
  obtain ⟨hfr, hbk, hsd⟩ := cardOfBlock_some sub b c h
  have hfr_mem : ∀ f ∈ (parseCardFields (splitlinesCh b)).2.1,
      stripCh f = f ∧ nlFreeB f = true ∧ hasDash3 f = false := by
    intro f hfm
    rcases (mem_foldl_cardLineStep (splitlinesCh b) (none, [], []) f).1 hfm with h1 | h1
    · simp at h1
    · exact frag_props hbd h1
  have hbk_mem : ∀ f ∈ (parseCardFields (splitlinesCh b)).2.2,
      stripCh f = f ∧ nlFreeB f = true ∧ hasDash3 f = false := by
    intro f hfm
    rcases (mem_foldl_cardLineStep (splitlinesCh b) (none, [], []) f).2 hfm with h1 | h1
    · simp at h1
    · exact frag_props hbd h1
  refine ⟨?_, ?_, ?_, ?_, ?_, ?_, ?_, ?_, ?_, cardOfBlock_media sub b c h⟩
  · rw [hfr]; exact stripCh_joinBr _ (fun f hf2 => (hfr_mem f hf2).1)
  · rw [hbk]; exact stripCh_joinBr _ (fun f hf2 => (hbk_mem f hf2).1)
  · rw [hsd]; exact hsub_s
  · rw [hfr]; exact nlFreeB_joinBr _ (fun f hf2 => (hfr_mem f hf2).2.1)
  · rw [hbk]; exact nlFreeB_joinBr _ (fun f hf2 => (hbk_mem f hf2).2.1)
  · rw [hsd]; exact hsub_nl
  · rw [hfr]; exact hasDash3_joinBr _ (fun f hf2 => (hfr_mem f hf2).2.2)
  · rw [hbk]; exact hasDash3_joinBr _ (fun f hf2 => (hbk_mem f hf2).2.2)
  · rw [hsd]; exact hsub_d

theorem subdeckValue_props (fl : List Char) (hnl : nlFreeB fl = true)
    (hd : hasDash3 fl = false) :
    stripCh (subdeckValue fl) = subdeckValue fl ∧ nlFreeB (subdeckValue fl) = true ∧
      hasDash3 (subdeckValue fl) = false := by
  refine ⟨stripCh_idem _, ?_, ?_⟩
  · cases hv : (splitColonOnce fl).2 with
    | none => unfold subdeckValue; rw [hv]; decide
    | some v =>
      obtain ⟨hfl, -⟩ := splitColonOnce_some_decomp fl v hv
      unfold subdeckValue
      rw [hv]
      rw [nlFreeB_iff]
      intro a ha
      have : a ∈ fl := by
        rw [hfl]
        exact List.mem_append.mpr (Or.inr (List.mem_cons_of_mem _
          (mem_of_stripCh (by simpa using ha))))
      exact (nlFreeB_iff fl).mp hnl a this
  · cases hv : (splitColonOnce fl).2 with
    | none => unfold subdeckValue; rw [hv]; decide
    | some v =>
      obtain ⟨hfl, -⟩ := splitColonOnce_some_decomp fl v hv
      unfold subdeckValue
      rw [hv]
      have hvfl : v <:+: fl := ⟨(splitColonOnce fl).1 ++ [':'], [], by
        conv_rhs => rw [hfl]
        simp⟩
      exact hasDash3_within (within_trans (stripCh_within v) hvfl) hd

theorem firstLine_props (b : List Char) (hbd : hasDash3 b = false) :
    nlFreeB (stripCh ((splitlinesCh (stripCh b)).head?.getD [])) = true ∧
    hasDash3 (stripCh ((splitlinesCh (stripCh b)).head?.getD [])) = false := by
  cases hsp : splitlinesCh (stripCh b) with
  | nil => exact ⟨by decide, by decide⟩
  | cons p ps =>
    have hpmem : p ∈ splitlinesCh (stripCh b) := by
      rw [hsp]
      exact List.mem_cons_self ..
    have hnl := splitlinesCh_parts_nlFree (stripCh b) p hpmem
    have hin : p <:+: stripCh b := (splitlinesCh_structure (stripCh b)).1 p hpmem
    constructor
    · show nlFreeB (stripCh p) = true
      rw [nlFreeB_iff]
      intro a ha
      exact (nlFreeB_iff p).mp hnl a (mem_of_stripCh ha)
    · show hasDash3 (stripCh p) = false
      exact hasDash3_within (within_trans (stripCh_within p)
        (within_trans hin (stripCh_within b))) hbd

theorem processBlocks_WF : ∀ (bs : List (List Char)) (sub : List Char),
    stripCh sub = sub → nlFreeB sub = true → hasDash3 sub = false →
    (∀ b ∈ bs, hasDash3 b = false) →
    ∀ c ∈ processBlocks sub bs, WFcard c := by
  intro bs
  induction bs with
  | nil => intro sub _ _ _ _ c hc; simp [processBlocks] at hc
  | cons b bs ih =>
    intro sub hs hnl hd hbs c hc
    have hbd : hasDash3 b = false := hbs b (List.mem_cons_self ..)
    have hbs' : ∀ b2 ∈ bs, hasDash3 b2 = false :=
      fun b2 hb2 => hbs b2 (List.mem_cons_of_mem _ hb2)
    by_cases h1 : stripCh b = []
    · rw [show processBlocks sub (b :: bs) = processBlocks sub bs by
        simp [processBlocks, h1]] at hc
      exact ih sub hs hnl hd hbs' c hc
    · by_cases h2 : isSubdeckLine (stripCh ((splitlinesCh (stripCh b)).head?.getD [])) = true
      · rw [show processBlocks sub (b :: bs) =
            processBlocks (subdeckValue
              (stripCh ((splitlinesCh (stripCh b)).head?.getD []))) bs by
          simp [processBlocks, h1, h2]] at hc
        obtain ⟨hfl_nl, hfl_d⟩ := firstLine_props b hbd
        obtain ⟨ps, pn, pd⟩ := subdeckValue_props _ hfl_nl hfl_d
        exact ih _ ps pn pd hbs' c hc
      · cases hcb : cardOfBlock sub (stripCh b) with
        | none =>
          rw [show processBlocks sub (b :: bs) = processBlocks sub bs by
            simp [processBlocks, h1, h2, hcb]] at hc
          exact ih sub hs hnl hd hbs' c hc
        | some c0 =>
          rw [show processBlocks sub (b :: bs) = c0 :: processBlocks sub bs by
            simp [processBlocks, h1, h2, hcb]] at hc
          rcases List.mem_cons.mp hc with h3 | h3
          · subst h3
            exact block_card_WF hs hnl hd (hasDash3_within (stripCh_within b) hbd) hcb
          · exact ih sub hs hnl hd hbs' c h3

theorem parse_cards_WF (content : List Char) : ∀ c ∈ (parseCh content).2, WFcard c := by
  intro c hc
  exact processBlocks_WF _ [] rfl rfl rfl
    (fun b hb => splitDashAll_parts _ b hb) c hc

/-- C8: for every (header, cards) pair produced by a parse, serializing
it back to text with the same `KEY: value` header lines, the `---`
delimiter, `SUBDECK:` directives and `FRONT:`/`BACK:` field markers
(`serializeDoc`, modelled from the spec) and parsing that text again
yields exactly the original header mapping and card sequence — equality
on the nose, hence in particular equality up to whitespace
normalization. -/
theorem round_trip_idempotent (content : List Char) :
    parseCh (serializeDoc (parseCh content).1 (parseCh content).2) = parseCh content :=
  reparse_doc (parseCh content).1 (parseCh content).2
    (parse_header_WF content) (parse_header_nodup content) (parse_cards_WF content)
